import Mathlib

/-!
Shallow embedding of `src/static/videos/clip_video.py` and
`src/static/videos/transform_video.py`.

The two scripts batch-process `.mp4` files under a directory tree:
`clip_video.py` crops files whose name lacks a keyword, `transform_video.py`
re-encodes files whose name contains the keyword.  Both support an
OVERWRITE mode (temp file in the scratch directory, then `shutil.move`
onto the source) and a COPY mode (sibling output with a fixed name
suffix, `_cropped` resp. `_new`).

Strings are modelled by Lean `String` (a list of characters); the Python
string primitives used by the code (`str.lower`, `str.endswith`,
substring `in`, `os.path.join`, `os.path.splitext`, `os.path.basename`,
`os.path.dirname`) are embedded below, following the CPython `posixpath`
implementations.  The filesystem is an association list from path to an
abstract content (`Nat`); the external `ffmpeg` invocation is an oracle
parameter describing, per input path, how the subprocess behaves.
-/

namespace EchoMotion

/-- Python `str.lower()` on one character (`Char.toLower` is exactly the
ASCII lowering CPython performs on the characters relevant here). -/
def lowerChar (c : Char) : Char := Char.toLower c

/-- Python `str.lower()`: lower every character. -/
def strLower (s : String) : String := ⟨s.data.map lowerChar⟩

/-- Python `str.endswith(t)`: `t` is a suffix of `s`. -/
def strEndsWith (s t : String) : Bool := t.data.isSuffixOf s.data

/-- Python `str.startswith(t)`. -/
def strStartsWith (s t : String) : Bool := t.data.isPrefixOf s.data

/-- Python substring test `nd in hay` on lists of characters. -/
def subListOf : List Char → List Char → Bool
  | nd, [] => nd.isEmpty
  | nd, c :: rest => nd.isPrefixOf (c :: rest) || subListOf nd rest

/-- Python substring test `needle in hay` for strings. -/
def strContains (hay needle : String) : Bool := subListOf needle.data hay.data

/-- Index of the last character satisfying `p` (Python `str.rfind`,
returning `none` instead of `-1`). -/
def findLastIdx (p : Char → Bool) : List Char → Option Nat
  | [] => none
  | c :: cs =>
    match findLastIdx p cs with
    | some i => some (i + 1)
    | none => if p c then some 0 else none

/-- `posixpath.join(a, b)`: `b` if `b` is absolute; else `a ++ b` if `a`
is empty or ends with the separator; else `a ++ "/" ++ b`. -/
def pyJoin (a b : String) : String :=
  if strStartsWith b "/" then b
  else if a = "" || strEndsWith a "/" then a ++ b
  else a ++ "/" ++ b

/-- `sepIndex + 1` in `genericpath._splitext`: the index right after the
last `'/'` (`0` when there is none, matching `rfind` returning `-1`). -/
def sepBound (cs : List Char) : Nat :=
  match findLastIdx (fun c => c == '/') cs with
  | none => 0
  | some i => i + 1

/-- `posixpath.splitext(p)` (via `genericpath._splitext`): split at the
last `'.'` provided it lies after the last `'/'` and the basename part
before it is not made of dots only. -/
def pySplitext (p : String) : String × String :=
  match findLastIdx (fun c => c == '.') p.data with
  | none => (p, "")
  | some d =>
    if sepBound p.data ≤ d
        && ((p.data.drop (sepBound p.data)).take (d - sepBound p.data)).any
            (fun c => c != '.') then
      (⟨p.data.take d⟩, ⟨p.data.drop d⟩)
    else (p, "")

/-- `posixpath.basename(p)`: everything after the last `'/'`. -/
def pyBasename (p : String) : String :=
  ⟨(p.data.reverse.takeWhile (fun c => !(c == '/'))).reverse⟩

/-- `posixpath.dirname(p)`: everything up to and including the last
`'/'` (`head = p.take (rfind('/') + 1)`), with trailing separators
stripped unless the head is all separators. -/
def pyDirname (p : String) : String :=
  if p.data.take (sepBound p.data) ≠ []
      ∧ ¬ (p.data.take (sepBound p.data)).all (fun c => c == '/') then
    ⟨((p.data.take (sepBound p.data)).reverse.dropWhile (fun c => c == '/')).reverse⟩
  else ⟨p.data.take (sepBound p.data)⟩

/-- `clip_video.py` line 94/96: an `.mp4` file (case-insensitively) that
does not contain the exclude keyword, and — in COPY mode only — does not
already end with `_cropped.mp4`. -/
def cropSelect (exclude_keyword : String) (overwrite : Bool) (filename : String) : Bool :=
  strEndsWith (strLower filename) ".mp4" &&
  !(strContains (strLower filename) (strLower exclude_keyword)) &&
  !(!overwrite && strEndsWith (strLower filename) "_cropped.mp4")

/-- `transform_video.py` line 215/217: an `.mp4` file (case-insensitively)
containing the keyword, and — in COPY mode only — not already ending with
`_new.mp4`. -/
def transformSelect (keyword : String) (overwrite : Bool) (filename : String) : Bool :=
  strEndsWith (strLower filename) ".mp4" &&
  strContains (strLower filename) (strLower keyword) &&
  !(!overwrite && strEndsWith (strLower filename) "_new.mp4")

/-- The `os.walk` collection loop of both scripts: traverse the walk
entries `(dirpath, filename)` in order and append `os.path.join(dirpath,
filename)` for every selected filename. -/
def collectPaths (sel : String → Bool) : List (String × String) → List String
  | [] => []
  | e :: rest =>
    if sel e.2 then pyJoin e.1 e.2 :: collectPaths sel rest
    else collectPaths sel rest

/-- Abstract filesystem: association list from path to content. -/
abbrev FS := List (String × Nat)

/-- Content stored at a path, if any. -/
def fsLookup (fs : FS) (p : String) : Option Nat := List.lookup p fs

/-- `os.path.exists`. -/
def fsExists (fs : FS) (p : String) : Bool := (fsLookup fs p).isSome

/-- Write (create or replace) the file at `p`. -/
def fsWrite (fs : FS) (p : String) (c : Nat) : FS :=
  (p, c) :: fs.filter (fun e => !(e.1 == p))

/-- `os.remove`. -/
def fsRemove (fs : FS) (p : String) : FS :=
  fs.filter (fun e => !(e.1 == p))

/-- `shutil.move src dst` for regular files: the content of `src` ends
up at `dst` and `src` is gone. -/
def fsMove (fs : FS) (src dst : String) : FS :=
  match fsLookup fs src with
  | none => fs
  | some c => fsWrite (fsRemove fs src) dst c

/-- Behaviour of one `subprocess.run(['ffmpeg', ...])` invocation:
success writing the output file, a non-zero exit with captured stderr
(possibly leaving partially written output at the output path), or
`FileNotFoundError` because the binary is missing. -/
inductive FfmpegResult where
  | ok (out : Nat)
  | fail (returncode : Int) (stderr : String) (leftover : Option Nat)
  | notFound
deriving DecidableEq

/-- Effect of the external process on the filesystem, given the path it
was asked to write. -/
def applyRun (r : FfmpegResult) (outPath : String) (fs : FS) : FS :=
  match r with
  | .ok out => fsWrite fs outPath out
  | .fail _ _ (some c) => fsWrite fs outPath c
  | .fail _ _ none => fs
  | .notFound => fs

/-- The two scripts differ only in the temp-file name prefix and the
COPY-mode output suffix (plus the ffmpeg filter, which is outside the
model). -/
structure PipelineCfg where
  tempPre : String
  sfx : String
deriving DecidableEq

/-- `clip_video.py`: `temp_crop_` temp names, `_cropped` outputs. -/
def cropCfg : PipelineCfg := ⟨"temp_crop_", "_cropped"⟩

/-- `transform_video.py`: `temp_` temp names, `_new` outputs. -/
def transformCfg : PipelineCfg := ⟨"temp_", "_new"⟩

/-- OVERWRITE-mode temp path: `os.path.join(tempfile.gettempdir(),
f"temp_crop_{os.path.basename(input_path)}")`, with `gettempdir()`
modelled as the constant `/tmp`. -/
def tempOutputPath (cfg : PipelineCfg) (input_path : String) : String :=
  pyJoin "/tmp" (cfg.tempPre ++ pyBasename input_path)

/-- COPY-mode destination: `base + sfx + ext` for
`base, ext = os.path.splitext(input_path)`. -/
def copyDest (cfg : PipelineCfg) (input_path : String) : String :=
  (pySplitext input_path).1 ++ cfg.sfx ++ (pySplitext input_path).2

/-- The destination-path computation of `crop_video_top_half` /
`re_encode_video` as a pure function of source path and mode. -/
def destPath (cfg : PipelineCfg) (input_path : String) (overwrite : Bool) : String :=
  if overwrite then input_path else copyDest cfg input_path

/-- `crop_video_top_half` / `re_encode_video` (lines 17–69 resp.
134–191): pick temp and final paths, run ffmpeg writing to the temp
path, on success move temp onto the final path in OVERWRITE mode, on
`CalledProcessError` report and delete the temp file in OVERWRITE mode,
on `FileNotFoundError` report and `exit()` (modelled as `none`). -/
def processVideo (cfg : PipelineCfg) (oracle : String → FfmpegResult)
    (input_path : String) (overwrite : Bool) (fs : FS) : Option FS × List String :=
  let temp_output_path :=
    if overwrite then tempOutputPath cfg input_path else copyDest cfg input_path
  let output_path_final :=
    if overwrite then input_path else copyDest cfg input_path
  match oracle input_path with
  | .ok out =>
    let fs1 := fsWrite fs temp_output_path out
    if overwrite then
      (some (fsMove fs1 temp_output_path output_path_final),
        ["Processing: " ++ input_path,
         "SUCCESS: overwrote original file -> " ++ output_path_final])
    else
      (some fs1,
        ["Processing: " ++ input_path,
         "SUCCESS: saved output to -> " ++ output_path_final])
  | .fail rc err leftover =>
    let fs1 := applyRun (.fail rc err leftover) temp_output_path fs
    let fs2 :=
      if overwrite && fsExists fs1 temp_output_path then fsRemove fs1 temp_output_path
      else fs1
    (some fs2,
      ["Processing: " ++ input_path,
       "ERROR processing " ++ input_path ++ ":",
       "  Return code: " ++ toString rc,
       "  Stderr: " ++ err])
  | .notFound =>
    (none,
      ["Processing: " ++ input_path,
       "ERROR: ffmpeg command not found. Is FFmpeg installed and in your system PATH?"])

/-- `crop_video_top_half`. -/
def crop_video_top_half (oracle : String → FfmpegResult)
    (input_path : String) (overwrite : Bool) (fs : FS) : Option FS × List String :=
  processVideo cropCfg oracle input_path overwrite fs

/-- `re_encode_video`. -/
def re_encode_video (oracle : String → FfmpegResult)
    (input_path : String) (overwrite : Bool) (fs : FS) : Option FS × List String :=
  processVideo transformCfg oracle input_path overwrite fs

/-- Result of running a batch: final filesystem, the source paths whose
Job was actually invoked (in order), the console log, and whether the
run was aborted by `exit()`. -/
structure RunOut where
  fs : FS
  attempted : List String
  log : List String
  aborted : Bool
deriving DecidableEq

/-- The per-path loop at the end of `find_and_crop_videos` /
`find_and_process_videos`: run each Job in order; a Job returning `none`
(`exit()` on missing ffmpeg) terminates the process, leaving the rest of
the batch unattempted. -/
def runJobs (job : String → FS → Option FS × List String) :
    List String → FS → RunOut
  | [], fs => ⟨fs, [], [], false⟩
  | p :: rest, fs =>
    match job p fs with
    | (some fs1, lg) =>
      ⟨(runJobs job rest fs1).fs, p :: (runJobs job rest fs1).attempted,
        lg ++ (runJobs job rest fs1).log, (runJobs job rest fs1).aborted⟩
    | (none, lg) => ⟨fs, [p], lg, true⟩

/-- `find_and_crop_videos` (lines 72–108): validate the root directory,
collect all matching paths first, then process them one by one.  The
root's existence as a directory and the walk entries of the tree are
explicit parameters of the model. -/
def find_and_crop_videos (oracle : String → FfmpegResult) (isdir : Bool)
    (tree : List (String × String)) (exclude_keyword : String)
    (overwrite : Bool) (fs : FS) : RunOut :=
  if !isdir then ⟨fs, [], ["Error: directory not found."], false⟩
  else
    let video_paths_to_process := collectPaths (cropSelect exclude_keyword overwrite) tree
    if video_paths_to_process.isEmpty then
      ⟨fs, [], ["No matching video files found to crop."], false⟩
    else
      runJobs (fun p fsx => crop_video_top_half oracle p overwrite fsx)
        video_paths_to_process fs

/-- `find_and_process_videos` (lines 194–229). -/
def find_and_process_videos (oracle : String → FfmpegResult) (isdir : Bool)
    (tree : List (String × String)) (keyword : String)
    (overwrite : Bool) (fs : FS) : RunOut :=
  if !isdir then ⟨fs, [], ["Error: directory not found."], false⟩
  else
    let video_paths_to_process := collectPaths (transformSelect keyword overwrite) tree
    if video_paths_to_process.isEmpty then
      ⟨fs, [], ["No matching video files found."], false⟩
    else
      runJobs (fun p fsx => re_encode_video oracle p overwrite fsx)
        video_paths_to_process fs

/-- The COPY-mode output of a selected walk entry `(d, f)`, as a walk
entry again: same directory, filename `base + sfx + ext` for
`base, ext = splitext(f)`. -/
def destFilename (cfg : PipelineCfg) (f : String) : String :=
  (pySplitext f).1 ++ cfg.sfx ++ (pySplitext f).2

/-- Sanity of an `os.walk` entry `(dirpath, filename)`: the filename is
nonempty and contains no separator; the dirpath is nonempty and does not
end with a separator. -/
def GoodEntry (e : String × String) : Prop :=
  (∀ c ∈ e.2.data, c ≠ '/') ∧ e.2 ≠ "" ∧ strEndsWith e.1 "/" = false ∧ e.1 ≠ ""

instance (e : String × String) : Decidable (GoodEntry e) := by
  unfold GoodEntry; infer_instance

/-! ## Helper lemmas about the embedded string primitives -/

theorem findLastIdx_eq_none_iff (p : Char → Bool) (cs : List Char) :
    findLastIdx p cs = none ↔ ∀ c ∈ cs, p c = false := by
  induction cs with
  | nil => simp [findLastIdx]
  | cons c cs ih =>
    constructor
    · intro h x hx
      unfold findLastIdx at h
      cases hcs : findLastIdx p cs with
      | some i => rw [hcs] at h; exact Option.noConfusion h
      | none =>
        rw [hcs] at h
        by_cases hc : p c = true
        · rw [if_pos hc] at h; exact Option.noConfusion h
        · rcases List.mem_cons.mp hx with rfl | hx2
          · simpa using hc
          · exact (ih.mp hcs) x hx2
    · intro h
      have hcs : findLastIdx p cs = none :=
        ih.mpr (fun x hx => h x (List.mem_cons_of_mem _ hx))
      have hc : p c = false := h c (List.mem_cons_self _ _)
      unfold findLastIdx
      rw [hcs, hc]
      simp

theorem findLastIdx_append_of_none {p : Char → Bool} {l₂ : List Char}
    (l₁ : List Char) (h : findLastIdx p l₂ = none) :
    findLastIdx p (l₁ ++ l₂) = findLastIdx p l₁ := by
  induction l₁ with
  | nil =>
    simpa [findLastIdx] using h
  | cons c l₁ ih =>
    simp only [List.cons_append]
    unfold findLastIdx
    rw [ih]

theorem findLastIdx_append_of_some {p : Char → Bool} {l₂ : List Char} {i : Nat}
    (l₁ : List Char) (h : findLastIdx p l₂ = some i) :
    findLastIdx p (l₁ ++ l₂) = some (l₁.length + i) := by
  induction l₁ with
  | nil => simpa using h
  | cons c l₁ ih =>
    simp only [List.cons_append]
    unfold findLastIdx
    rw [ih]
    simp only [List.length_cons]
    congr 1
    omega

theorem findLastIdx_eq_some {p : Char → Bool} {cs : List Char} {d : Nat}
    (h : findLastIdx p cs = some d) :
    ∃ u c v, cs = u ++ c :: v ∧ u.length = d ∧ p c = true ∧ ∀ x ∈ v, p x = false := by
  induction cs generalizing d with
  | nil => simp [findLastIdx] at h
  | cons c cs ih =>
    unfold findLastIdx at h
    cases hcs : findLastIdx p cs with
    | some i =>
      rw [hcs] at h
      have hd : d = i + 1 := by injection h with h2; omega
      obtain ⟨u, x, v, hcs2, hlen, hx, hv⟩ := ih hcs
      exact ⟨c :: u, x, v, by rw [hcs2]; rfl, by simp [hlen, hd], hx, hv⟩
    | none =>
      rw [hcs] at h
      by_cases hc : p c = true
      · rw [if_pos hc] at h
        have hd : d = 0 := by injection h with h2; omega
        exact ⟨[], c, cs, rfl, by simp [hd], hc,
          (findLastIdx_eq_none_iff p cs).mp hcs⟩
      · rw [if_neg hc] at h
        exact Option.noConfusion h

theorem findLastIdx_lt_length {p : Char → Bool} {cs : List Char} {d : Nat}
    (h : findLastIdx p cs = some d) : d < cs.length := by
  obtain ⟨u, c, v, rfl, hlen, -, -⟩ := findLastIdx_eq_some h
  rw [← hlen, List.length_append, List.length_cons]
  omega

theorem takeWhile_append_of_all {α : Type} {p : α → Bool} {l₁ l₂ : List α}
    (h : ∀ a ∈ l₁, p a = true) :
    (l₁ ++ l₂).takeWhile p = l₁ ++ l₂.takeWhile p := by
  induction l₁ with
  | nil => simp
  | cons c l₁ ih =>
    simp only [List.cons_append, List.takeWhile_cons]
    rw [h c (List.mem_cons_self _ _)]
    simp only [if_true]
    rw [ih (fun a ha => h a (List.mem_cons_of_mem _ ha))]

theorem sep_append_inj {α : Type} {s : α} :
    ∀ {u : List α} {v a b : List α}, u ++ s :: a = v ++ s :: b →
      s ∉ u → s ∉ v → u = v ∧ a = b := by
  intro u
  induction u with
  | nil =>
    intro v a b h hu hv
    cases v with
    | nil => simpa using h
    | cons x xs =>
      simp only [List.nil_append, List.cons_append, List.cons.injEq] at h
      rw [← h.1] at hv
      exact absurd (List.mem_cons_self s xs) hv
  | cons y ys ih =>
    intro v a b h hu hv
    cases v with
    | nil =>
      simp only [List.cons_append, List.nil_append, List.cons.injEq] at h
      rw [h.1] at hu
      exact absurd (List.mem_cons_self s ys) hu
    | cons x xs =>
      simp only [List.cons_append, List.cons.injEq] at h
      obtain ⟨rfl, h2⟩ := h
      have hr := ih h2 (fun hm => hu (List.mem_cons_of_mem _ hm))
        (fun hm => hv (List.mem_cons_of_mem _ hm))
      exact ⟨by rw [hr.1], hr.2⟩

theorem string_data_ne_nil {s : String} (h : s ≠ "") : s.data ≠ [] := by
  intro hd
  exact h (String.ext hd)

theorem strStartsWith_slash_false {f : String} (hf : ∀ c ∈ f.data, c ≠ '/')
    (hne : f ≠ "") : strStartsWith f "/" = false := by
  unfold strStartsWith
  cases hd : f.data with
  | nil => exact absurd hd (string_data_ne_nil hne)
  | cons c cs =>
    have hc : c ≠ '/' := hf c (hd ▸ List.mem_cons_self c cs)
    show List.isPrefixOf ['/'] (c :: cs) = false
    have hb : ('/' == c) = false := beq_eq_false_iff_ne.mpr (Ne.symm hc)
    simp [List.isPrefixOf, hb]

theorem pyJoin_eq_append {d f : String} (hd1 : d ≠ "") (hd2 : strEndsWith d "/" = false)
    (hf : ∀ c ∈ f.data, c ≠ '/') (hfne : f ≠ "") :
    pyJoin d f = d ++ "/" ++ f := by
  unfold pyJoin
  rw [strStartsWith_slash_false hf hfne]
  simp [hd1, hd2]

theorem pyJoin_data {d f : String} (hd1 : d ≠ "") (hd2 : strEndsWith d "/" = false)
    (hf : ∀ c ∈ f.data, c ≠ '/') (hfne : f ≠ "") :
    (pyJoin d f).data = d.data ++ '/' :: f.data := by
  rw [pyJoin_eq_append hd1 hd2 hf hfne]
  simp [List.append_assoc]

theorem pyJoin_inj {d₁ f₁ d₂ f₂ : String}
    (hd₁ : d₁ ≠ "") (he₁ : strEndsWith d₁ "/" = false)
    (hf₁ : ∀ c ∈ f₁.data, c ≠ '/') (hn₁ : f₁ ≠ "")
    (hd₂ : d₂ ≠ "") (he₂ : strEndsWith d₂ "/" = false)
    (hf₂ : ∀ c ∈ f₂.data, c ≠ '/') (hn₂ : f₂ ≠ "")
    (h : pyJoin d₁ f₁ = pyJoin d₂ f₂) : d₁ = d₂ ∧ f₁ = f₂ := by
  have hd : d₁.data ++ '/' :: f₁.data = d₂.data ++ '/' :: f₂.data := by
    rw [← pyJoin_data hd₁ he₁ hf₁ hn₁, ← pyJoin_data hd₂ he₂ hf₂ hn₂, h]
  have hr : f₁.data.reverse ++ '/' :: d₁.data.reverse
      = f₂.data.reverse ++ '/' :: d₂.data.reverse := by
    have := congrArg List.reverse hd
    simpa [List.reverse_append, List.append_assoc] using this
  have hsep := sep_append_inj hr
    (by simp only [List.mem_reverse]; exact fun hm => hf₁ '/' hm rfl)
    (by simp only [List.mem_reverse]; exact fun hm => hf₂ '/' hm rfl)
  constructor
  · exact String.ext (List.reverse_injective hsep.2)
  · exact String.ext (List.reverse_injective hsep.1)

theorem collectPaths_eq (sel : String → Bool) (tree : List (String × String)) :
    collectPaths sel tree
      = (tree.filter (fun e => sel e.2)).map (fun e => pyJoin e.1 e.2) := by
  induction tree with
  | nil => rfl
  | cons e rest ih =>
    by_cases hs : sel e.2 = true
    · simp [collectPaths, hs, List.filter_cons, ih]
    · simp only [Bool.not_eq_true] at hs
      simp [collectPaths, hs, List.filter_cons, ih]

theorem mem_collectPaths (sel : String → Bool) (tree : List (String × String))
    (p : String) :
    p ∈ collectPaths sel tree
      ↔ ∃ d f, (d, f) ∈ tree ∧ sel f = true ∧ p = pyJoin d f := by
  rw [collectPaths_eq]
  simp only [List.mem_map, List.mem_filter, Prod.exists]
  constructor
  · rintro ⟨d, f, ⟨hmem, hsel⟩, rfl⟩
    exact ⟨d, f, hmem, hsel, rfl⟩
  · rintro ⟨d, f, hmem, hsel, rfl⟩
    exact ⟨d, f, ⟨hmem, hsel⟩, rfl⟩

theorem collectPaths_nodup (sel : String → Bool) (tree : List (String × String))
    (hg : ∀ e ∈ tree, GoodEntry e) (hn : tree.Nodup) :
    (collectPaths sel tree).Nodup := by
  rw [collectPaths_eq]
  refine List.Nodup.map_on ?_ (hn.filter _)
  intro x hx y hy hxy
  have hgx := hg x (List.mem_of_mem_filter hx)
  have hgy := hg y (List.mem_of_mem_filter hy)
  obtain ⟨hfx, hnx, hex, hdx⟩ := hgx
  obtain ⟨hfy, hny, hey, hdy⟩ := hgy
  have := pyJoin_inj hdx hex hfx hnx hdy hey hfy hny hxy
  exact Prod.ext this.1 this.2

/-! ## Helper lemmas about the filesystem model -/

theorem lookup_filter_ne {q p : String} (fs : FS) (h : q ≠ p) :
    List.lookup q (fs.filter (fun e => !(e.1 == p))) = List.lookup q fs := by
  induction fs with
  | nil => rfl
  | cons e fs ih =>
    obtain ⟨k, v⟩ := e
    by_cases hk : k = p
    · subst hk
      have hq : (q == k) = false := beq_eq_false_iff_ne.mpr h
      simp [List.filter_cons, List.lookup, hq, ih]
    · have hkp : (k == p) = false := beq_eq_false_iff_ne.mpr hk
      simp only [List.filter_cons, hkp, Bool.not_false, if_true]
      by_cases hq : q = k
      · subst hq
        simp [List.lookup]
      · have hq2 : (q == k) = false := beq_eq_false_iff_ne.mpr hq
        simp [List.lookup, hq2, ih]

theorem fsLookup_write_self (fs : FS) (p : String) (c : Nat) :
    fsLookup (fsWrite fs p c) p = some c := by
  simp [fsLookup, fsWrite, List.lookup]

theorem fsLookup_write_ne (fs : FS) (p : String) (c : Nat) {q : String}
    (h : q ≠ p) : fsLookup (fsWrite fs p c) q = fsLookup fs q := by
  have hq : (q == p) = false := beq_eq_false_iff_ne.mpr h
  simp only [fsLookup, fsWrite, List.lookup, hq]
  exact lookup_filter_ne fs h

theorem fsLookup_remove_self (fs : FS) (p : String) :
    fsLookup (fsRemove fs p) p = none := by
  induction fs with
  | nil => rfl
  | cons e fs ih =>
    obtain ⟨k, v⟩ := e
    by_cases hk : k = p
    · subst hk
      simpa [fsRemove, List.filter_cons] using ih
    · have hkp : (k == p) = false := beq_eq_false_iff_ne.mpr hk
      have hpk : (p == k) = false := beq_eq_false_iff_ne.mpr (Ne.symm hk)
      simpa [fsRemove, fsLookup, List.filter_cons, hkp, List.lookup, hpk] using ih

theorem fsLookup_remove_ne (fs : FS) (p : String) {q : String} (h : q ≠ p) :
    fsLookup (fsRemove fs p) q = fsLookup fs q := by
  exact lookup_filter_ne fs h

theorem fsExists_write_self (fs : FS) (p : String) (c : Nat) :
    fsExists (fsWrite fs p c) p = true := by
  simp [fsExists, fsLookup_write_self]

/-! ## Basename and temp-path lemmas -/

theorem mem_takeWhile_pred {α : Type} {p : α → Bool} :
    ∀ {l : List α} {a : α}, a ∈ l.takeWhile p → p a = true := by
  intro l
  induction l with
  | nil => intro a h; simp at h
  | cons c cs ih =>
    intro a h
    rw [List.takeWhile_cons] at h
    by_cases hc : p c = true
    · rw [if_pos hc] at h
      rcases List.mem_cons.mp h with rfl | h2
      · exact hc
      · exact ih h2
    · rw [if_neg hc] at h
      simp at h

theorem pyBasename_no_slash (p : String) : ∀ c ∈ (pyBasename p).data, c ≠ '/' := by
  intro c hc
  unfold pyBasename at hc
  simp only [List.mem_reverse] at hc
  have := mem_takeWhile_pred hc
  simp only [Bool.not_eq_true'] at this
  exact fun h => by simp [h] at this

theorem pyBasename_of_append {u t : List Char} (ht : ∀ c ∈ t, c ≠ '/') :
    pyBasename ⟨u ++ '/' :: t⟩ = ⟨t⟩ := by
  apply String.ext
  show ((u ++ '/' :: t).reverse.takeWhile (fun c => !(c == '/'))).reverse = t
  rw [List.reverse_append, List.reverse_cons]
  rw [List.append_assoc]
  rw [takeWhile_append_of_all (fun a ha => ?_)]
  · have : (((['/'] ++ u.reverse)).takeWhile (fun c => !(c == '/'))) = [] := by
      simp [List.takeWhile_cons]
    rw [this, List.append_nil, List.reverse_reverse]
  · have : a ∈ t := List.mem_reverse.mp ha
    have hne := ht a this
    simp [hne]

theorem string_append_data (s t : String) : (s ++ t).data = s.data ++ t.data := rfl

theorem tempOutputPath_data {cfg : PipelineCfg} {c : Char} {rest : List Char}
    (hpre : cfg.tempPre.data = c :: rest) (hc : c ≠ '/') (p : String) :
    (tempOutputPath cfg p).data
      = "/tmp/".data ++ cfg.tempPre.data ++ (pyBasename p).data := by
  unfold tempOutputPath pyJoin
  have hstart : strStartsWith (cfg.tempPre ++ pyBasename p) "/" = false := by
    unfold strStartsWith
    rw [string_append_data, hpre]
    show List.isPrefixOf ['/'] (c :: (rest ++ (pyBasename p).data)) = false
    have hb : ('/' == c) = false := beq_eq_false_iff_ne.mpr (Ne.symm hc)
    simp [List.isPrefixOf, hb]
  rw [hstart]
  simp only [Bool.false_eq_true, if_false]
  have h2 : (decide ("/tmp" = "") || strEndsWith "/tmp" "/") = false := by decide
  rw [h2]
  simp only [Bool.false_eq_true, if_false]
  rw [string_append_data, string_append_data, string_append_data]
  show "/tmp".data ++ "/".data ++ (cfg.tempPre.data ++ (pyBasename p).data) = _
  rw [← List.append_assoc]
  rfl

theorem tempOutputPath_ne_input {cfg : PipelineCfg} {c : Char} {rest : List Char}
    (hpre : cfg.tempPre.data = c :: rest) (hc : c ≠ '/')
    (hnoslash : ∀ x ∈ cfg.tempPre.data, x ≠ '/') (p : String) :
    tempOutputPath cfg p ≠ p := by
  intro h
  have hd := congrArg String.data h
  rw [tempOutputPath_data hpre hc p] at hd
  have hsplit : "/tmp/".data ++ cfg.tempPre.data ++ (pyBasename p).data
      = "/tmp".data ++ '/' :: (cfg.tempPre.data ++ (pyBasename p).data) := by
    rw [List.append_assoc]
    rfl
  have hp : p = ⟨"/tmp".data ++ '/' :: (cfg.tempPre.data ++ (pyBasename p).data)⟩ :=
    String.ext (by rw [← hd, hsplit])
  have hbase := pyBasename_of_append (u := "/tmp".data)
    (t := cfg.tempPre.data ++ (pyBasename p).data) (fun x hx => by
      rcases List.mem_append.mp hx with h1 | h2
      · exact hnoslash x h1
      · exact pyBasename_no_slash p x h2)
  rw [← hp] at hbase
  have hlen := congrArg (fun s : String => s.data.length) hbase
  simp only [List.length_append] at hlen
  rw [hpre] at hlen
  simp at hlen

theorem tempOutputPath_crop_ne (p : String) : tempOutputPath cropCfg p ≠ p :=
  tempOutputPath_ne_input
    (show cropCfg.tempPre.data = 't' :: "emp_crop_".data from rfl) (by decide)
    (by decide) p

theorem tempOutputPath_transform_ne (p : String) : tempOutputPath transformCfg p ≠ p :=
  tempOutputPath_ne_input
    (show transformCfg.tempPre.data = 't' :: "emp_".data from rfl) (by decide)
    (by decide) p

/-! ## Per-job lemmas -/

theorem processVideo_isSome (cfg : PipelineCfg) (oracle : String → FfmpegResult)
    (input : String) (ow : Bool) (fs : FS) (h : oracle input ≠ .notFound) :
    ((processVideo cfg oracle input ow fs).1).isSome = true := by
  unfold processVideo
  cases ho : oracle input with
  | ok out => by_cases how : ow = true <;> simp [how]
  | fail rc err lo => simp
  | notFound => exact absurd ho h

theorem processVideo_none_iff (cfg : PipelineCfg) (oracle : String → FfmpegResult)
    (input : String) (ow : Bool) (fs : FS) :
    (processVideo cfg oracle input ow fs).1 = none ↔ oracle input = .notFound := by
  unfold processVideo
  cases ho : oracle input with
  | ok out => by_cases how : ow = true <;> simp [how]
  | fail rc err lo => simp
  | notFound => simp

theorem processVideo_ok_overwrite (cfg : PipelineCfg) (oracle : String → FfmpegResult)
    (input : String) (fs : FS) (out : Nat) (h : oracle input = .ok out) :
    (processVideo cfg oracle input true fs).1
      = some (fsMove (fsWrite fs (tempOutputPath cfg input) out)
          (tempOutputPath cfg input) input) := by
  unfold processVideo
  rw [h]
  simp

theorem fsMove_write_lookup_dst (fs : FS) (src dst : String) (o : Nat) :
    fsLookup (fsMove (fsWrite fs src o) src dst) dst = some o := by
  unfold fsMove
  rw [fsLookup_write_self]
  exact fsLookup_write_self _ _ _

theorem fsMove_write_lookup_src (fs : FS) (src dst : String) (o : Nat)
    (hne : src ≠ dst) :
    fsLookup (fsMove (fsWrite fs src o) src dst) src = none := by
  unfold fsMove
  rw [fsLookup_write_self]
  rw [fsLookup_write_ne _ _ _ hne]
  exact fsLookup_remove_self _ _

theorem processVideo_fail_overwrite (cfg : PipelineCfg) (oracle : String → FfmpegResult)
    (input : String) (fs : FS) (rc : Int) (err : String) (lo : Option Nat)
    (h : oracle input = .fail rc err lo)
    (hne : tempOutputPath cfg input ≠ input) :
    ∃ fs2, (processVideo cfg oracle input true fs).1 = some fs2
      ∧ fsExists fs2 (tempOutputPath cfg input) = false
      ∧ fsLookup fs2 input = fsLookup fs input
      ∧ ("  Stderr: " ++ err) ∈ (processVideo cfg oracle input true fs).2 := by
  have hin : input ≠ tempOutputPath cfg input := Ne.symm hne
  unfold processVideo
  rw [h]
  simp only [eq_self_iff_true, if_true, Bool.true_and, applyRun]
  cases lo with
  | some cont =>
    rw [if_pos (fsExists_write_self fs _ cont)]
    refine ⟨_, rfl, ?_, ?_, by simp⟩
    · simp only [fsExists]
      rw [fsLookup_remove_self]
      rfl
    · rw [fsLookup_remove_ne _ _ hin, fsLookup_write_ne _ _ _ hin]
  | none =>
    by_cases hex : fsExists fs (tempOutputPath cfg input) = true
    · rw [if_pos hex]
      refine ⟨_, rfl, ?_, ?_, by simp⟩
      · simp only [fsExists]
        rw [fsLookup_remove_self]
        rfl
      · exact fsLookup_remove_ne fs _ hin
    · rw [if_neg hex]
      refine ⟨_, rfl, ?_, rfl, by simp⟩
      simpa using hex

/-! ## Batch-loop lemmas -/

theorem runJobs_all_attempted (job : String → FS → Option FS × List String) :
    ∀ (paths : List String) (fs : FS),
      (∀ p ∈ paths, ∀ fsx, ((job p fsx).1).isSome = true) →
      (runJobs job paths fs).attempted = paths
        ∧ (runJobs job paths fs).aborted = false := by
  intro paths
  induction paths with
  | nil => intro fs H; exact ⟨rfl, rfl⟩
  | cons p rest ih =>
    intro fs H
    have hp := H p (List.mem_cons_self _ _) fs
    rcases hj : job p fs with ⟨o, lg⟩
    cases o with
    | none => rw [hj] at hp; simp at hp
    | some fs1 =>
      have hrest := ih fs1 (fun q hq fsx => H q (List.mem_cons_of_mem _ hq) fsx)
      simp only [runJobs, hj]
      exact ⟨by rw [hrest.1], hrest.2⟩

theorem runJobs_log_mem (job : String → FS → Option FS × List String) (msg : String) :
    ∀ (paths : List String) (fs : FS) (p : String), p ∈ paths →
      (∀ q ∈ paths, ∀ fsx, ((job q fsx).1).isSome = true) →
      (∀ fsx, msg ∈ (job p fsx).2) →
      msg ∈ (runJobs job paths fs).log := by
  intro paths
  induction paths with
  | nil => intro fs p hp; simp at hp
  | cons q rest ih =>
    intro fs p hp H hmsg
    have hq := H q (List.mem_cons_self _ _) fs
    rcases hj : job q fs with ⟨o, lg⟩
    cases o with
    | none => rw [hj] at hq; simp at hq
    | some fs1 =>
      simp only [runJobs, hj]
      rcases List.mem_cons.mp hp with rfl | hp2
      · apply List.mem_append_left
        have := hmsg fs
        rw [hj] at this
        exact this
      · exact List.mem_append_right _
          (ih fs1 p hp2 (fun r hr fsx => H r (List.mem_cons_of_mem _ hr) fsx) hmsg)

theorem runJobs_abort (job : String → FS → Option FS × List String) :
    ∀ (pre : List String) (p : String) (post : List String) (fs : FS),
      (∀ q ∈ pre, ∀ fsx, ((job q fsx).1).isSome = true) →
      (∀ fsx, (job p fsx).1 = none) →
      (runJobs job (pre ++ p :: post) fs).attempted = pre ++ [p]
        ∧ (runJobs job (pre ++ p :: post) fs).aborted = true := by
  intro pre
  induction pre with
  | nil =>
    intro p post fs _ Hp
    rcases hj : job p fs with ⟨o, lg⟩
    cases o with
    | some fs1 =>
      have := Hp fs
      rw [hj] at this
      exact Option.noConfusion this
    | none =>
      simp only [List.nil_append, runJobs, hj]
      simp
  | cons q rest ih =>
    intro p post fs H Hp
    have hq := H q (List.mem_cons_self _ _) fs
    rcases hj : job q fs with ⟨o, lg⟩
    cases o with
    | none => rw [hj] at hq; simp at hq
    | some fs1 =>
      simp only [List.cons_append, runJobs, hj, List.append_eq]
      have hrest := ih p post fs1 (fun r hr fsx => H r (List.mem_cons_of_mem _ hr) fsx) Hp
      exact ⟨by rw [hrest.1], hrest.2⟩

/-! ## splitext lemmas -/

theorem sepBound_le_length (cs : List Char) : sepBound cs ≤ cs.length := by
  unfold sepBound
  cases h : findLastIdx (fun c => c == '/') cs with
  | none => exact Nat.zero_le _
  | some i => exact findLastIdx_lt_length h

theorem findLastIdx_none_of_ne {p : Char → Bool} {t : List Char} {x : Char}
    (ht : ∀ c ∈ t, c ≠ x) (hp : ∀ c, p c = (c == x)) : findLastIdx p t = none := by
  apply (findLastIdx_eq_none_iff p t).mpr
  intro c hc
  rw [hp c]
  exact beq_eq_false_iff_ne.mpr (ht c hc)

theorem sepBound_append_noslash {u t : List Char} (ht : ∀ c ∈ t, c ≠ '/') :
    sepBound (u ++ t) = sepBound u := by
  unfold sepBound
  rw [findLastIdx_append_of_none u (findLastIdx_none_of_ne ht (fun c => rfl))]

theorem pySplitext_eq_none_case {p : String}
    (h : findLastIdx (fun c => c == '.') p.data = none) : pySplitext p = (p, "") := by
  unfold pySplitext
  rw [h]

theorem pySplitext_eq_split {p : String} {d : Nat}
    (h : findLastIdx (fun c => c == '.') p.data = some d)
    (hc : (sepBound p.data ≤ d
      && ((p.data.drop (sepBound p.data)).take (d - sepBound p.data)).any
          (fun c => c != '.')) = true) :
    pySplitext p = (⟨p.data.take d⟩, ⟨p.data.drop d⟩) := by
  unfold pySplitext
  rw [h]
  simp only [hc, if_true]

theorem pySplitext_eq_nosplit {p : String} {d : Nat}
    (h : findLastIdx (fun c => c == '.') p.data = some d)
    (hc : (sepBound p.data ≤ d
      && ((p.data.drop (sepBound p.data)).take (d - sepBound p.data)).any
          (fun c => c != '.')) = false) :
    pySplitext p = (p, "") := by
  unfold pySplitext
  rw [h]
  simp only [hc, Bool.false_eq_true, if_false]

theorem pySplitext_concat (p : String) :
    (pySplitext p).1 ++ (pySplitext p).2 = p := by
  cases h : findLastIdx (fun c => c == '.') p.data with
  | none => rw [pySplitext_eq_none_case h]; exact String.append_empty p
  | some d =>
    cases hc : (sepBound p.data ≤ d
        && ((p.data.drop (sepBound p.data)).take (d - sepBound p.data)).any
            (fun c => c != '.')) with
    | false => rw [pySplitext_eq_nosplit h hc]; exact String.append_empty p
    | true =>
      rw [pySplitext_eq_split h hc]
      exact String.ext (List.take_append_drop d p.data)

theorem ext_no_slash {p : String} {d : Nat}
    (hsd : sepBound p.data ≤ d) :
    ∀ x ∈ p.data.drop d, x ≠ '/' := by
  intro x hx
  unfold sepBound at hsd
  cases hsep : findLastIdx (fun c => c == '/') p.data with
  | none =>
    have hall := (findLastIdx_eq_none_iff _ _).mp hsep
    exact beq_eq_false_iff_ne.mp (hall x (List.mem_of_mem_drop hx))
  | some i =>
    rw [hsep] at hsd
    have hsd2 : i + 1 ≤ d := hsd
    obtain ⟨u, c0, v, hcs, hlen, hc0, hv⟩ := findLastIdx_eq_some hsep
    have hxv : x ∈ v := by
      rw [hcs] at hx
      have hrw : (u ++ c0 :: v).drop d = v.drop (d - (i + 1)) := by
        rw [show u ++ c0 :: v = (u ++ [c0]) ++ v by simp]
        rw [List.drop_append_eq_append_drop]
        have hlen2 : (u ++ [c0]).length = i + 1 := by simp [hlen]
        have h1 : (u ++ [c0]).drop d = [] := by
          apply List.drop_eq_nil_of_le
          rw [hlen2]
          omega
        rw [h1, List.nil_append, hlen2]
      rw [hrw] at hx
      exact List.mem_of_mem_drop hx
    exact beq_eq_false_iff_ne.mp (hv x hxv)

theorem sfx_any_nondot {sfx : String} (hnd : ∀ c ∈ sfx.data, c ≠ '.')
    (hne : sfx.data ≠ []) : sfx.data.any (fun c => c != '.') = true := by
  cases hd : sfx.data with
  | nil => exact absurd hd hne
  | cons c cs =>
    have hc : c ≠ '.' := hnd c (hd ▸ List.mem_cons_self c cs)
    simp [List.any_cons, bne_iff_ne, hc]

theorem pySplitext_of_shape {q : String} {u sfxd v : List Char}
    (hq : q.data = (u ++ sfxd) ++ '.' :: v)
    (hv_dot : ∀ x ∈ v, (fun c => c == '.') x = false)
    (hv_slash : ∀ x ∈ '.' :: v, x ≠ '/')
    (hs_slash : ∀ x ∈ sfxd, x ≠ '/')
    (hs_nondot : sfxd.any (fun c => c != '.') = true) :
    pySplitext q = (⟨u ++ sfxd⟩, ⟨'.' :: v⟩) := by
  have htail : findLastIdx (fun c => c == '.') ('.' :: v) = some 0 := by
    have hvnone := (findLastIdx_eq_none_iff (fun c => c == '.') v).mpr hv_dot
    simp [findLastIdx, hvnone]
  have h1 : findLastIdx (fun c => c == '.') q.data = some (u.length + sfxd.length) := by
    rw [hq, findLastIdx_append_of_some _ htail]
    simp [List.length_append]
  have hsB : sepBound q.data = sepBound u := by
    rw [hq, sepBound_append_noslash hv_slash, sepBound_append_noslash hs_slash]
  have hsu : sepBound u ≤ u.length := sepBound_le_length u
  have hslice : ((q.data.drop (sepBound q.data)).take
      ((u.length + sfxd.length) - sepBound q.data))
      = u.drop (sepBound u) ++ sfxd := by
    rw [hsB, hq, List.append_assoc]
    rw [List.drop_append_of_le_length hsu]
    have hlen3 : (u.drop (sepBound u)).length = u.length - sepBound u := by
      simp [List.length_drop]
    rw [show u.length + sfxd.length - sepBound u
        = (u.drop (sepBound u)).length + sfxd.length by rw [hlen3]; omega]
    rw [List.take_append]
    rw [List.take_append_of_le_length (Nat.le_refl _), List.take_length]
  have h2 : (sepBound q.data ≤ u.length + sfxd.length
      && ((q.data.drop (sepBound q.data)).take
          ((u.length + sfxd.length) - sepBound q.data)).any
          (fun c => c != '.')) = true := by
    rw [hslice, hsB]
    have hle : sepBound u ≤ u.length + sfxd.length :=
      Nat.le_trans hsu (Nat.le_add_right _ _)
    simp [hle, hs_nondot]
  rw [pySplitext_eq_split h1 h2, hq]
  have hlen4 : (u ++ sfxd).length = u.length + sfxd.length := by
    simp [List.length_append]
  rw [List.take_left' hlen4, List.drop_left' hlen4]

theorem pySplitext_sfx (sfx p : String)
    (hnd : ∀ c ∈ sfx.data, c ≠ '.')
    (hns : ∀ c ∈ sfx.data, c ≠ '/')
    (hne : sfx.data ≠ []) :
    pySplitext ((pySplitext p).1 ++ sfx ++ (pySplitext p).2)
      = ((pySplitext p).1 ++ sfx, (pySplitext p).2) := by
  have hsfx_dot : findLastIdx (fun c => c == '.') sfx.data = none :=
    findLastIdx_none_of_ne hnd (fun c => rfl)
  cases h : findLastIdx (fun c => c == '.') p.data with
  | none =>
    rw [pySplitext_eq_none_case h]
    simp only [String.append_empty]
    apply pySplitext_eq_none_case
    show findLastIdx (fun c => c == '.') (p.data ++ sfx.data) = none
    rw [findLastIdx_append_of_none p.data hsfx_dot]
    exact h
  | some d =>
    have hdlt : d < p.data.length := findLastIdx_lt_length h
    cases hc : (sepBound p.data ≤ d
        && ((p.data.drop (sepBound p.data)).take (d - sepBound p.data)).any
            (fun c => c != '.')) with
    | false =>
      rw [pySplitext_eq_nosplit h hc]
      simp only [String.append_empty]
      apply pySplitext_eq_nosplit (d := d)
      · show findLastIdx (fun c => c == '.') (p.data ++ sfx.data) = some d
        rw [findLastIdx_append_of_none p.data hsfx_dot]
        exact h
      · show (sepBound (p.data ++ sfx.data) ≤ d
            && (((p.data ++ sfx.data).drop (sepBound (p.data ++ sfx.data))).take
                (d - sepBound (p.data ++ sfx.data))).any (fun c => c != '.')) = false
        rw [sepBound_append_noslash hns]
        by_cases hsd : sepBound p.data ≤ d
        · have hany : ((p.data.drop (sepBound p.data)).take
              (d - sepBound p.data)).any (fun c => c != '.') = false := by
            rw [decide_eq_true hsd] at hc
            simpa using hc
          have hslice : (((p.data ++ sfx.data)).drop (sepBound p.data)).take
              (d - sepBound p.data)
              = (p.data.drop (sepBound p.data)).take (d - sepBound p.data) := by
            rw [List.drop_append_of_le_length (Nat.le_trans hsd (Nat.le_of_lt hdlt))]
            rw [List.take_append_of_le_length (by rw [List.length_drop]; omega)]
          rw [hslice, hany]
          simp
        · simp [hsd]
    | true =>
      have hsd : sepBound p.data ≤ d := by
        have h1 := (Bool.and_eq_true_iff.mp hc).1
        exact of_decide_eq_true h1
      rw [pySplitext_eq_split h hc]
      obtain ⟨u, c0, v, hcs, hlen, hc0, hv⟩ := findLastIdx_eq_some h
      have hc0e : c0 = '.' := by simpa using hc0
      subst hc0e
      have htake : p.data.take d = u := by rw [hcs]; exact List.take_left' hlen
      have hdrop : p.data.drop d = '.' :: v := by rw [hcs]; exact List.drop_left' hlen
      have hvslash : ∀ x ∈ '.' :: v, x ≠ '/' := by
        rw [← hdrop]; exact ext_no_slash hsd
      rw [htake, hdrop]
      have hshape := pySplitext_of_shape
        (show ((⟨u⟩ : String) ++ sfx ++ (⟨'.' :: v⟩ : String)).data
          = (u ++ sfx.data) ++ '.' :: v from rfl) hv hvslash hns
        (sfx_any_nondot hnd hne)
      rw [hshape]
      rfl

/-! ## Lowercasing lemmas -/

theorem char_toNat_ofNat_valid {n : Nat} (h : n.isValidChar) :
    (Char.ofNat n).toNat = n := by
  unfold Char.ofNat
  rw [dif_pos h]
  rfl

theorem char_toNat_injective {c d : Char} (h : c.toNat = d.toNat) : c = d := by
  have h2 := congrArg Char.ofNat h
  rwa [Char.ofNat_toNat, Char.ofNat_toNat] at h2

theorem lowerChar_eq_dot_iff {c : Char} : lowerChar c = '.' ↔ c = '.' := by
  constructor
  · intro h
    unfold lowerChar Char.toLower at h
    by_cases hb : c.toNat ≥ 65 ∧ c.toNat ≤ 90
    · rw [if_pos hb] at h
      have hv : (c.toNat + 32).isValidChar := Or.inl (by omega)
      have h2 := congrArg Char.toNat h
      rw [char_toNat_ofNat_valid hv] at h2
      have h46 : ('.' : Char).toNat = 46 := by decide
      rw [h46] at h2
      omega
    · rw [if_neg hb] at h
      exact h
  · intro h
    subst h
    decide

theorem strLower_data (s : String) : (strLower s).data = s.data.map lowerChar := rfl

theorem strEndsWith_iff {s t : String} : strEndsWith s t = true ↔ t.data <:+ s.data :=
  List.isSuffixOf_iff_suffix

/-! ## Suffix-splitting lemmas -/

theorem suffix_split_right {α : Type} {s a b : List α} (h : s <:+ a ++ b)
    (hlen : b.length ≤ s.length) : ∃ s₁, s = s₁ ++ b ∧ s₁ <:+ a := by
  obtain ⟨t, ht⟩ := h
  have hsplit := List.take_append_drop (s.length - b.length) s
  have hlen2 : (s.drop (s.length - b.length)).length = b.length := by
    rw [List.length_drop]
    omega
  have hcomb : (t ++ s.take (s.length - b.length)) ++ s.drop (s.length - b.length)
      = a ++ b := by
    rw [List.append_assoc, hsplit, ht]
  obtain ⟨h1, h2⟩ := List.append_inj' hcomb hlen2
  exact ⟨s.take (s.length - b.length), hsplit.symm.trans (by rw [h2]), ⟨t, h1⟩⟩

theorem suffix_split_left {α : Type} {s a b : List α} (h : s <:+ a ++ b)
    (hlen : s.length ≤ b.length) : s <:+ b := by
  obtain ⟨t, ht⟩ := h
  have hl := congrArg List.length ht
  simp only [List.length_append] at hl
  have h2 := congrArg (List.drop a.length) ht
  rw [List.drop_append_eq_append_drop] at h2
  have hz : a.length - t.length = 0 := by omega
  rw [hz, List.drop_zero, List.drop_left] at h2
  exact ⟨t.drop a.length, h2⟩

theorem suffix_eq_of_length_eq {α : Type} {s₁ s₂ l : List α} (h₁ : s₁ <:+ l)
    (h₂ : s₂ <:+ l) (hl : s₁.length = s₂.length) : s₁ = s₂ := by
  obtain ⟨t₁, ht₁⟩ := h₁
  obtain ⟨t₂, ht₂⟩ := h₂
  rw [← ht₂] at ht₁
  exact (List.append_inj' ht₁ hl).2

theorem sfx_no_suffix_pre {sfxd s₁ : List Char}
    (hpre : ∀ k, k < sfxd.length → ¬ (sfxd.drop k <+: ".mp4".data))
    (hs : s₁ <:+ sfxd) (hne : s₁ ≠ []) (hp : s₁ <+: ".mp4".data) : False := by
  obtain ⟨t, ht⟩ := hs
  have hk : sfxd.drop t.length = s₁ := by
    rw [← ht]
    exact List.drop_left t s₁
  have hlt : t.length < sfxd.length := by
    have hlen := congrArg List.length ht
    simp only [List.length_append] at hlen
    have hs1 : 0 < s₁.length := List.length_pos.mpr hne
    omega
  exact hpre t.length hlt (hk ▸ hp)

theorem pySplitext_snd_shape (p : String) :
    (pySplitext p).2 = "" ∨
      ∃ v, (pySplitext p).2.data = '.' :: v ∧ ∀ x ∈ v, x ≠ '.' := by
  cases h : findLastIdx (fun c => c == '.') p.data with
  | none => left; rw [pySplitext_eq_none_case h]
  | some d =>
    cases hc : (sepBound p.data ≤ d
        && ((p.data.drop (sepBound p.data)).take (d - sepBound p.data)).any
            (fun c => c != '.')) with
    | false => left; rw [pySplitext_eq_nosplit h hc]
    | true =>
      right
      rw [pySplitext_eq_split h hc]
      obtain ⟨u, c0, v, hcs, hlen, hc0, hv⟩ := findLastIdx_eq_some h
      have hc0e : c0 = '.' := by simpa using hc0
      subst hc0e
      refine ⟨v, ?_, fun x hx => beq_eq_false_iff_ne.mp (hv x hx)⟩
      show (p.data.drop d) = '.' :: v
      rw [hcs]
      exact List.drop_left' hlen

theorem dest_mp4_forces_sfx (sfx f : String)
    (hlow : sfx.data.map lowerChar = sfx.data)
    (hs4 : 4 ≤ sfx.data.length)
    (hpre : ∀ k, k < sfx.data.length → ¬ (sfx.data.drop k <+: ".mp4".data))
    (hEnds : strEndsWith (strLower ((pySplitext f).1 ++ sfx ++ (pySplitext f).2))
      ".mp4" = true) :
    strEndsWith (strLower ((pySplitext f).1 ++ sfx ++ (pySplitext f).2))
      (sfx ++ ".mp4") = true := by
  have h4 := strEndsWith_iff.mp hEnds
  have hdata : (strLower ((pySplitext f).1 ++ sfx ++ (pySplitext f).2)).data
      = ((pySplitext f).1.data.map lowerChar ++ sfx.data)
        ++ ((pySplitext f).2.data.map lowerChar) := by
    rw [strLower_data]
    show (((pySplitext f).1.data ++ sfx.data) ++ (pySplitext f).2.data).map lowerChar = _
    rw [List.map_append, List.map_append, hlow]
  rw [hdata] at h4
  apply strEndsWith_iff.mpr
  rw [hdata, String.data_append]
  rcases pySplitext_snd_shape f with hE | ⟨v, hEv, hvd⟩
  · exfalso
    have hnil : ((pySplitext f).2.data.map lowerChar) = [] := by rw [hE]; rfl
    rw [hnil, List.append_nil] at h4
    have h5 : ".mp4".data <:+ sfx.data :=
      suffix_split_left h4 (le_trans (by decide) hs4)
    exact sfx_no_suffix_pre hpre h5 (by decide) (List.prefix_refl _)
  · have hmapE : (pySplitext f).2.data.map lowerChar = '.' :: v.map lowerChar := by
      rw [hEv, List.map_cons, show lowerChar '.' = '.' from by decide]
    rw [hmapE] at h4 ⊢
    rcases Nat.lt_or_ge (v.length + 1) 4 with hsmall | hbig
    · exfalso
      obtain ⟨s₁, hs₁eq, hs₁suf⟩ := suffix_split_right h4
        (by simp only [List.length_cons, List.length_map]
            show v.length + 1 ≤ (".mp4".data).length
            rw [show (".mp4".data).length = 4 from by decide]
            omega)
      have hs₁len : s₁.length + (v.length + 1) = 4 := by
        have hl := congrArg List.length hs₁eq
        simp only [List.length_append, List.length_cons, List.length_map,
          List.length_nil] at hl
        omega
      have hs₁ne : s₁ ≠ [] := by
        intro h0
        rw [h0] at hs₁len
        simp at hs₁len
        omega
      have hs₁sfx : s₁ <:+ sfx.data :=
        suffix_split_left hs₁suf (by omega)
      exact sfx_no_suffix_pre hpre hs₁sfx hs₁ne ⟨_, hs₁eq.symm⟩
    · have h5 : ".mp4".data <:+ '.' :: v.map lowerChar :=
        suffix_split_left h4
          (by simp only [List.length_cons, List.length_map, List.length_nil]
              omega)
      rcases Nat.lt_or_ge 4 (v.length + 1) with hgt | hle4
      · exfalso
        rcases List.suffix_cons_iff.mp h5 with heq | hsuf
        · have hl := congrArg List.length heq
          simp only [List.length_cons, List.length_map, List.length_nil] at hl
          omega
        · have hdotmem : '.' ∈ v.map lowerChar := by
            have hmem : '.' ∈ ".mp4".data := by decide
            exact hsuf.sublist.subset hmem
          obtain ⟨c, hcv, hlc⟩ := List.mem_map.mp hdotmem
          exact hvd c hcv (lowerChar_eq_dot_iff.mp hlc)
      · have hlen4 : ('.' :: v.map lowerChar).length = 4 := by
          simp only [List.length_cons, List.length_map]
          omega
        have heq : ".mp4".data = '.' :: v.map lowerChar :=
          suffix_eq_of_length_eq h5 (List.suffix_refl _) (by rw [hlen4]; decide)
        rw [← heq, List.append_assoc]
        exact List.suffix_append _ _

theorem cropSelect_dest_false (kw f : String) :
    cropSelect kw false (destFilename cropCfg f) = false := by
  by_cases hE : strEndsWith (strLower (destFilename cropCfg f)) ".mp4" = true
  · have h2 := dest_mp4_forces_sfx "_cropped" f (by decide) (by decide)
      (by decide) hE
    have h3 : strEndsWith (strLower (destFilename cropCfg f)) "_cropped.mp4" = true := by
      rw [show ("_cropped.mp4" : String) = "_cropped" ++ ".mp4" from by decide]
      exact h2
    unfold cropSelect
    rw [h3]
    simp
  · simp only [Bool.not_eq_true] at hE
    unfold cropSelect
    rw [hE]
    simp

theorem transformSelect_dest_false (kw f : String) :
    transformSelect kw false (destFilename transformCfg f) = false := by
  by_cases hE : strEndsWith (strLower (destFilename transformCfg f)) ".mp4" = true
  · have h2 := dest_mp4_forces_sfx "_new" f (by decide) (by decide)
      (by decide) hE
    have h3 : strEndsWith (strLower (destFilename transformCfg f)) "_new.mp4" = true := by
      rw [show ("_new.mp4" : String) = "_new" ++ ".mp4" from by decide]
      exact h2
    unfold transformSelect
    rw [h3]
    simp
  · simp only [Bool.not_eq_true] at hE
    unfold transformSelect
    rw [hE]
    simp

theorem collect_append_unselected (sel : String → Bool)
    (tree outs : List (String × String)) (houts : ∀ e ∈ outs, sel e.2 = false) :
    collectPaths sel (tree ++ outs) = collectPaths sel tree := by
  rw [collectPaths_eq, collectPaths_eq, List.filter_append]
  have hnil : outs.filter (fun e => sel e.2) = [] :=
    List.filter_eq_nil_iff.mpr (fun e he => by simp [houts e he])
  rw [hnil, List.append_nil]

theorem sepBound_noslash {fd : List Char} (hf : ∀ c ∈ fd, c ≠ '/') :
    sepBound fd = 0 := by
  unfold sepBound
  rw [findLastIdx_none_of_ne hf (fun c => rfl)]

theorem sepBound_join {dd fd : List Char} (hf : ∀ c ∈ fd, c ≠ '/') :
    sepBound (dd ++ '/' :: fd) = dd.length + 1 := by
  unfold sepBound
  have h1 : findLastIdx (fun c => c == '/') ('/' :: fd) = some 0 := by
    have hfd := findLastIdx_none_of_ne hf (fun c => rfl)
    simp [findLastIdx, hfd]
  rw [findLastIdx_append_of_some dd h1]

theorem pySplitext_join {d f : String}
    (hd1 : d ≠ "") (hd2 : strEndsWith d "/" = false)
    (hf : ∀ c ∈ f.data, c ≠ '/') (hfne : f ≠ "") :
    pySplitext (pyJoin d f)
      = (⟨d.data ++ '/' :: (pySplitext f).1.data⟩, (pySplitext f).2) := by
  have hdata : (pyJoin d f).data = d.data ++ '/' :: f.data :=
    pyJoin_data hd1 hd2 hf hfne
  have hdata2 : (pyJoin d f).data = (d.data ++ ['/']) ++ f.data := by
    rw [hdata, List.append_assoc]
    rfl
  have hsB : sepBound (pyJoin d f).data = d.data.length + 1 := by
    rw [hdata]
    exact sepBound_join hf
  have hlen1 : (d.data ++ ['/']).length = d.data.length + 1 := by simp
  cases hdot : findLastIdx (fun c => c == '.') f.data with
  | none =>
    have hnos : findLastIdx (fun c => c == '.') ('/' :: f.data) = none := by
      unfold findLastIdx
      rw [hdot]
      simp
    have hJ : findLastIdx (fun c => c == '.') (pyJoin d f).data
        = findLastIdx (fun c => c == '.') d.data := by
      rw [hdata]
      exact findLastIdx_append_of_none d.data hnos
    rw [pySplitext_eq_none_case hdot]
    cases hdd : findLastIdx (fun c => c == '.') d.data with
    | none =>
      rw [pySplitext_eq_none_case (hJ.trans hdd)]
      exact Prod.ext (String.ext hdata) rfl
    | some dp =>
      have hdp : dp < d.data.length := findLastIdx_lt_length hdd
      have hcond : (sepBound (pyJoin d f).data ≤ dp
          && (((pyJoin d f).data.drop (sepBound (pyJoin d f).data)).take
              (dp - sepBound (pyJoin d f).data)).any (fun c => c != '.')) = false := by
        rw [hsB]
        have hnle : ¬ (d.data.length + 1 ≤ dp) := by omega
        rw [decide_eq_false hnle, Bool.false_and]
      rw [pySplitext_eq_nosplit (hJ.trans hdd) hcond]
      exact Prod.ext (String.ext hdata) rfl
  | some df =>
    have hJ : findLastIdx (fun c => c == '.') (pyJoin d f).data
        = some (d.data.length + 1 + df) := by
      rw [hdata2, findLastIdx_append_of_some _ hdot, hlen1]
    have hsf : sepBound f.data = 0 := sepBound_noslash hf
    have hslice : (((pyJoin d f).data.drop (sepBound (pyJoin d f).data)).take
        ((d.data.length + 1 + df) - sepBound (pyJoin d f).data))
        = f.data.take df := by
      rw [hsB, hdata2, List.drop_left' hlen1]
      congr 1
      omega
    cases hcond : (f.data.take df).any (fun c => c != '.') with
    | true =>
      have hcf : (sepBound f.data ≤ df
          && ((f.data.drop (sepBound f.data)).take (df - sepBound f.data)).any
              (fun c => c != '.')) = true := by
        rw [hsf]
        simpa using hcond
      have hcJ : (sepBound (pyJoin d f).data ≤ (d.data.length + 1 + df)
          && (((pyJoin d f).data.drop (sepBound (pyJoin d f).data)).take
              ((d.data.length + 1 + df) - sepBound (pyJoin d f).data)).any
              (fun c => c != '.')) = true := by
        rw [hslice, hsB]
        have : d.data.length + 1 ≤ d.data.length + 1 + df := by omega
        simp [this, hcond]
      rw [pySplitext_eq_split hdot hcf, pySplitext_eq_split hJ hcJ]
      refine Prod.ext (String.ext ?_) (String.ext ?_)
      · show (pyJoin d f).data.take (d.data.length + 1 + df)
          = d.data ++ '/' :: f.data.take df
        rw [hdata2]
        rw [show d.data.length + 1 + df = (d.data ++ ['/']).length + df by
          rw [hlen1]]
        rw [List.take_append]
        simp [List.append_assoc]
      · show (pyJoin d f).data.drop (d.data.length + 1 + df) = f.data.drop df
        rw [hdata2]
        rw [show d.data.length + 1 + df = (d.data ++ ['/']).length + df by
          rw [hlen1]]
        rw [List.drop_append]
    | false =>
      have hcf : (sepBound f.data ≤ df
          && ((f.data.drop (sepBound f.data)).take (df - sepBound f.data)).any
              (fun c => c != '.')) = false := by
        rw [hsf]
        simpa using hcond
      have hcJ : (sepBound (pyJoin d f).data ≤ (d.data.length + 1 + df)
          && (((pyJoin d f).data.drop (sepBound (pyJoin d f).data)).take
              ((d.data.length + 1 + df) - sepBound (pyJoin d f).data)).any
              (fun c => c != '.')) = false := by
        rw [hslice, hcond]
        simp
      rw [pySplitext_eq_nosplit hdot hcf, pySplitext_eq_nosplit hJ hcJ]
      exact Prod.ext (String.ext hdata) rfl

theorem copyDest_join (cfg : PipelineCfg) {d f : String}
    (hd1 : d ≠ "") (hd2 : strEndsWith d "/" = false)
    (hf : ∀ c ∈ f.data, c ≠ '/') (hfne : f ≠ "")
    (hsfx : ∀ c ∈ cfg.sfx.data, c ≠ '/') :
    copyDest cfg (pyJoin d f) = pyJoin d (destFilename cfg f) := by
  have hfd : ∀ c ∈ (destFilename cfg f).data, c ≠ '/' := by
    intro c hc
    show c ≠ '/'
    have hdd : (destFilename cfg f).data
        = ((pySplitext f).1.data ++ cfg.sfx.data) ++ (pySplitext f).2.data := rfl
    rw [hdd] at hc
    rcases List.mem_append.mp hc with h1 | h2
    · rcases List.mem_append.mp h1 with h3 | h4
      · have : c ∈ f.data := by
          have hcat := congrArg String.data (pySplitext_concat f)
          have : c ∈ (pySplitext f).1.data ++ (pySplitext f).2.data := by
            exact List.mem_append_left _ h3
          rwa [show (pySplitext f).1.data ++ (pySplitext f).2.data = f.data from hcat] at this
        exact hf c this
      · exact hsfx c h4
    · have : c ∈ f.data := by
        have hcat := congrArg String.data (pySplitext_concat f)
        have : c ∈ (pySplitext f).1.data ++ (pySplitext f).2.data :=
          List.mem_append_right _ h2
        rwa [show (pySplitext f).1.data ++ (pySplitext f).2.data = f.data from hcat] at this
      exact hf c this
  have hfdne : destFilename cfg f ≠ "" := by
    intro h0
    have hdd : ((pySplitext f).1.data ++ cfg.sfx.data) ++ (pySplitext f).2.data = [] :=
      congrArg String.data h0
    have h1 : (pySplitext f).1.data = [] :=
      (List.append_eq_nil.mp (List.append_eq_nil.mp hdd).1).1
    have h2 : (pySplitext f).2.data = [] := (List.append_eq_nil.mp hdd).2
    have hcat : (pySplitext f).1.data ++ (pySplitext f).2.data = f.data :=
      congrArg String.data (pySplitext_concat f)
    rw [h1, h2] at hcat
    exact string_data_ne_nil hfne hcat.symm
  have hR := pyJoin_eq_append hd1 hd2 hfd hfdne
  apply String.ext
  rw [hR]
  have hRdata : (d ++ "/" ++ destFilename cfg f).data
      = d.data ++ '/' :: (destFilename cfg f).data := by
    simp [List.append_assoc]
  rw [hRdata]
  have hsp := pySplitext_join hd1 hd2 hf hfne
  show ((pySplitext (pyJoin d f)).1 ++ cfg.sfx ++ (pySplitext (pyJoin d f)).2).data = _
  rw [hsp]
  show ((d.data ++ '/' :: (pySplitext f).1.data) ++ cfg.sfx.data)
      ++ (pySplitext f).2.data = d.data ++ '/' :: (destFilename cfg f).data
  have hdf : (destFilename cfg f).data
      = ((pySplitext f).1.data ++ cfg.sfx.data) ++ (pySplitext f).2.data := rfl
  rw [hdf]
  simp [List.append_assoc]

/-! ## Dirname and destination-path lemmas -/

theorem pyDirname_congr {p q : String} (h1 : sepBound q.data = sepBound p.data)
    (h2 : q.data.take (sepBound p.data) = p.data.take (sepBound p.data)) :
    pyDirname q = pyDirname p := by
  unfold pyDirname
  rw [h1, h2]

theorem pySplitext_snd_noslash (p : String) :
    ∀ x ∈ (pySplitext p).2.data, x ≠ '/' := by
  cases h : findLastIdx (fun c => c == '.') p.data with
  | none =>
    rw [pySplitext_eq_none_case h]
    intro x hx
    simp at hx
  | some d =>
    cases hc : (sepBound p.data ≤ d
        && ((p.data.drop (sepBound p.data)).take (d - sepBound p.data)).any
            (fun c => c != '.')) with
    | false =>
      rw [pySplitext_eq_nosplit h hc]
      intro x hx
      simp at hx
    | true =>
      rw [pySplitext_eq_split h hc]
      have hsd : sepBound p.data ≤ d :=
        of_decide_eq_true (Bool.and_eq_true_iff.mp hc).1
      exact ext_no_slash hsd

theorem pySplitext_fst_data (p : String) :
    (pySplitext p).1.data ++ (pySplitext p).2.data = p.data :=
  congrArg String.data (pySplitext_concat p)

theorem destFilename_noslash (cfg : PipelineCfg) (f : String)
    (hf : ∀ c ∈ f.data, c ≠ '/') (hsfx : ∀ c ∈ cfg.sfx.data, c ≠ '/') :
    ∀ c ∈ (destFilename cfg f).data, c ≠ '/' := by
  intro c hc
  have hdd : (destFilename cfg f).data
      = ((pySplitext f).1.data ++ cfg.sfx.data) ++ (pySplitext f).2.data := rfl
  rw [hdd] at hc
  rcases List.mem_append.mp hc with h1 | h2
  · rcases List.mem_append.mp h1 with h3 | h4
    · exact hf c ((pySplitext_fst_data f) ▸ List.mem_append_left _ h3)
    · exact hsfx c h4
  · exact hf c ((pySplitext_fst_data f) ▸ List.mem_append_right _ h2)

theorem destFilename_ne_empty (cfg : PipelineCfg) (f : String) (hfne : f ≠ "") :
    destFilename cfg f ≠ "" := by
  intro h0
  have hdd : ((pySplitext f).1.data ++ cfg.sfx.data) ++ (pySplitext f).2.data = [] :=
    congrArg String.data h0
  have h1 : (pySplitext f).1.data = [] :=
    (List.append_eq_nil.mp (List.append_eq_nil.mp hdd).1).1
  have h2 : (pySplitext f).2.data = [] := (List.append_eq_nil.mp hdd).2
  have hcat := pySplitext_fst_data f
  rw [h1, h2] at hcat
  exact string_data_ne_nil hfne hcat.symm

theorem copyDest_ne (cfg : PipelineCfg) (p : String) (hs : cfg.sfx.data ≠ []) :
    copyDest cfg p ≠ p := by
  intro h
  have hl := congrArg (fun s : String => s.data.length) h
  have hdd : (copyDest cfg p).data
      = ((pySplitext p).1.data ++ cfg.sfx.data) ++ (pySplitext p).2.data := rfl
  have hcat := congrArg List.length (pySplitext_fst_data p)
  simp only [hdd, List.length_append] at hl hcat
  have hs0 : 0 < cfg.sfx.data.length := List.length_pos.mpr hs
  omega

theorem pyDirname_copyDest (cfg : PipelineCfg) (p : String)
    (hsfx : ∀ c ∈ cfg.sfx.data, c ≠ '/') :
    pyDirname (copyDest cfg p) = pyDirname p := by
  have hdd : (copyDest cfg p).data
      = (pySplitext p).1.data ++ (cfg.sfx.data ++ (pySplitext p).2.data) := by
    show ((pySplitext p).1.data ++ cfg.sfx.data) ++ (pySplitext p).2.data = _
    rw [List.append_assoc]
  have hpd : p.data = (pySplitext p).1.data ++ (pySplitext p).2.data :=
    (pySplitext_fst_data p).symm
  have hrest : ∀ c ∈ cfg.sfx.data ++ (pySplitext p).2.data, c ≠ '/' := by
    intro c hc
    rcases List.mem_append.mp hc with h1 | h2
    · exact hsfx c h1
    · exact pySplitext_snd_noslash p c h2
  have h1 : sepBound (copyDest cfg p).data = sepBound p.data := by
    rw [hdd, sepBound_append_noslash hrest]
    conv_rhs => rw [hpd]
    rw [sepBound_append_noslash (pySplitext_snd_noslash p)]
  have hle : sepBound p.data ≤ (pySplitext p).1.data.length := by
    conv_lhs => rw [hpd]
    rw [sepBound_append_noslash (pySplitext_snd_noslash p)]
    exact sepBound_le_length _
  have h2 : (copyDest cfg p).data.take (sepBound p.data)
      = p.data.take (sepBound p.data) := by
    rw [hdd, List.take_append_of_le_length hle]
    conv_rhs => rw [hpd]
    rw [show sepBound ((pySplitext p).1.data ++ (pySplitext p).2.data)
        = sepBound p.data from by rw [← hpd]]
    rw [List.take_append_of_le_length hle]
  exact pyDirname_congr h1 h2

/-! ## Remaining helpers for the claim theorems -/

theorem tempOutputPath_inj {cfg : PipelineCfg} {c : Char} {rest : List Char}
    (hpre : cfg.tempPre.data = c :: rest) (hc : c ≠ '/') {p q : String}
    (h : tempOutputPath cfg p = tempOutputPath cfg q) :
    pyBasename p = pyBasename q := by
  have h1 := congrArg String.data h
  rw [tempOutputPath_data hpre hc p, tempOutputPath_data hpre hc q] at h1
  exact String.ext (List.append_cancel_left h1)

theorem subListOf_nil (l : List Char) : subListOf [] l = true := by
  induction l with
  | nil => rfl
  | cons c cs ih => simp [subListOf, ih, List.isPrefixOf]

theorem strContains_empty (x : String) : strContains x "" = true :=
  subListOf_nil x.data

theorem cropSelect_eq_true_iff (kw : String) (ow : Bool) (f : String) :
    cropSelect kw ow f = true
      ↔ strEndsWith (strLower f) ".mp4" = true
        ∧ strContains (strLower f) (strLower kw) = false
        ∧ (ow = false → strEndsWith (strLower f) "_cropped.mp4" = false) := by
  unfold cropSelect
  cases ow <;> simp [Bool.and_eq_true_iff, Bool.not_eq_true', and_assoc]

theorem transformSelect_eq_true_iff (kw : String) (ow : Bool) (f : String) :
    transformSelect kw ow f = true
      ↔ strEndsWith (strLower f) ".mp4" = true
        ∧ strContains (strLower f) (strLower kw) = true
        ∧ (ow = false → strEndsWith (strLower f) "_new.mp4" = false) := by
  unfold transformSelect
  cases ow <;> simp [Bool.and_eq_true_iff, Bool.not_eq_true', and_assoc]

theorem collectPaths_congr {sel₁ sel₂ : String → Bool}
    (h : ∀ f, sel₁ f = sel₂ f) (tree : List (String × String)) :
    collectPaths sel₁ tree = collectPaths sel₂ tree := by
  induction tree with
  | nil => rfl
  | cons e rest ih => simp only [collectPaths, h, ih]

theorem collectPaths_nil_of_false {sel : String → Bool}
    (h : ∀ f, sel f = false) (tree : List (String × String)) :
    collectPaths sel tree = [] := by
  induction tree with
  | nil => rfl
  | cons e rest ih => simp only [collectPaths, h, Bool.false_eq_true, if_false, ih]

theorem cropSelect_empty_kw (ow : Bool) (f : String) :
    cropSelect "" ow f = false := by
  unfold cropSelect
  rw [show strLower "" = "" from rfl, strContains_empty]
  simp

theorem transformSelect_empty_kw (f : String) :
    transformSelect "" false f
      = (strEndsWith (strLower f) ".mp4"
          && !(strEndsWith (strLower f) "_new.mp4")) := by
  unfold transformSelect
  rw [show strLower "" = "" from rfl, strContains_empty]
  simp

theorem find_crop_true (oracle : String → FfmpegResult)
    (tree : List (String × String)) (kw : String) (ow : Bool) (fs : FS) :
    find_and_crop_videos oracle true tree kw ow fs
      = if (collectPaths (cropSelect kw ow) tree).isEmpty
        then ⟨fs, [], ["No matching video files found to crop."], false⟩
        else runJobs (fun p fsx => crop_video_top_half oracle p ow fsx)
          (collectPaths (cropSelect kw ow) tree) fs := rfl

theorem find_transform_true (oracle : String → FfmpegResult)
    (tree : List (String × String)) (kw : String) (ow : Bool) (fs : FS) :
    find_and_process_videos oracle true tree kw ow fs
      = if (collectPaths (transformSelect kw ow) tree).isEmpty
        then ⟨fs, [], ["No matching video files found."], false⟩
        else runJobs (fun p fsx => re_encode_video oracle p ow fsx)
          (collectPaths (transformSelect kw ow) tree) fs := rfl

/-! ## Claim theorems -/

/-- C1: For every directory tree, keyword, and mode, the scanner's collected
list contains exactly the joins of the walk entries whose filename
case-insensitively ends with `.mp4` and whose case-insensitive
keyword-substring presence matches the pipeline's polarity (absent for the
crop pipeline, present for the transform pipeline), minus, in COPY mode only,
files whose filename already ends with the pipeline's own output suffix
(`_cropped.mp4` resp. `_new.mp4`); under `os.walk` sanity conditions
(slash-free nonempty filenames, nonempty dirpaths without trailing slash, no
duplicate entries) each matching file appears exactly once. -/
theorem spec_C1 (tree : List (String × String)) (kw : String) (ow : Bool) :
    (∀ p, p ∈ collectPaths (cropSelect kw ow) tree
      ↔ ∃ d f, (d, f) ∈ tree
          ∧ strEndsWith (strLower f) ".mp4" = true
          ∧ strContains (strLower f) (strLower kw) = false
          ∧ (ow = false → strEndsWith (strLower f) "_cropped.mp4" = false)
          ∧ p = pyJoin d f)
    ∧ (∀ p, p ∈ collectPaths (transformSelect kw ow) tree
      ↔ ∃ d f, (d, f) ∈ tree
          ∧ strEndsWith (strLower f) ".mp4" = true
          ∧ strContains (strLower f) (strLower kw) = true
          ∧ (ow = false → strEndsWith (strLower f) "_new.mp4" = false)
          ∧ p = pyJoin d f)
    ∧ ((∀ e ∈ tree, GoodEntry e) → tree.Nodup →
        (collectPaths (cropSelect kw ow) tree).Nodup
          ∧ (collectPaths (transformSelect kw ow) tree).Nodup) := by
  refine ⟨fun p => ?_, fun p => ?_,
    fun hg hn => ⟨collectPaths_nodup _ tree hg hn, collectPaths_nodup _ tree hg hn⟩⟩
  · rw [mem_collectPaths]
    constructor
    · rintro ⟨d, f, hm, hs, rfl⟩
      rw [cropSelect_eq_true_iff] at hs
      exact ⟨d, f, hm, hs.1, hs.2.1, hs.2.2, rfl⟩
    · rintro ⟨d, f, hm, h1, h2, h3, rfl⟩
      exact ⟨d, f, hm, (cropSelect_eq_true_iff kw ow f).mpr ⟨h1, h2, h3⟩, rfl⟩
  · rw [mem_collectPaths]
    constructor
    · rintro ⟨d, f, hm, hs, rfl⟩
      rw [transformSelect_eq_true_iff] at hs
      exact ⟨d, f, hm, hs.1, hs.2.1, hs.2.2, rfl⟩
    · rintro ⟨d, f, hm, h1, h2, h3, rfl⟩
      exact ⟨d, f, hm, (transformSelect_eq_true_iff kw ow f).mpr ⟨h1, h2, h3⟩, rfl⟩

/-- Witness for C1 at the spec's concrete scenario: tree
`root/{a.mp4, a_motion.mp4, b.txt}`, keyword `motion`, COPY mode. -/
theorem spec_C1_witness :
    (pyJoin "root" "a.mp4" ∈ collectPaths (cropSelect "motion" false)
        [("root", "a.mp4"), ("root", "a_motion.mp4"), ("root", "b.txt")])
    ∧ (collectPaths (cropSelect "motion" false)
        [("root", "a.mp4"), ("root", "a_motion.mp4"), ("root", "b.txt")]).Nodup := by
  constructor
  · apply ((spec_C1 [("root", "a.mp4"), ("root", "a_motion.mp4"), ("root", "b.txt")]
      "motion" false).1 (pyJoin "root" "a.mp4")).mpr
    exact ⟨"root", "a.mp4", by decide, by decide, by decide, fun _ => by decide, rfl⟩
  · exact ((spec_C1 [("root", "a.mp4"), ("root", "a_motion.mp4"), ("root", "b.txt")]
      "motion" false).2.2 (by decide) (by decide)).1

/-- C2 counterexample: two distinct source files of the same OVERWRITE-mode
batch (same filename in different directories) are mapped to the same
temporary path, refuting "distinct temp paths for distinct concurrent-batch
source files". -/
theorem spec_C2_counterexample :
    collectPaths (cropSelect "motion" true) [("/root/a", "x.mp4"), ("/root/b", "x.mp4")]
      = ["/root/a/x.mp4", "/root/b/x.mp4"]
    ∧ ("/root/a/x.mp4" : String) ≠ "/root/b/x.mp4"
    ∧ tempOutputPath cropCfg "/root/a/x.mp4" = tempOutputPath cropCfg "/root/b/x.mp4"
    ∧ tempOutputPath transformCfg "/root/a/x.mp4"
        = tempOutputPath transformCfg "/root/b/x.mp4" := by
  exact ⟨by decide, by decide, by decide, by decide⟩

/-- C2 (amended): In OVERWRITE mode the transcode output is first written to
a temporary file in the scratch directory whose name is a function of the
source's basename (distinct temp paths for sources with distinct basenames,
not for all distinct sources); the temporary file is moved onto the source
path only after the external process exits successfully, and on a non-zero
exit the temporary file is removed. -/
theorem spec_C2 :
    (∀ p q : String, pyBasename p ≠ pyBasename q →
        tempOutputPath cropCfg p ≠ tempOutputPath cropCfg q
          ∧ tempOutputPath transformCfg p ≠ tempOutputPath transformCfg q)
    ∧ (∀ (oracle : String → FfmpegResult) input fs out,
        oracle input = FfmpegResult.ok out →
        ∃ fs2, (crop_video_top_half oracle input true fs).1 = some fs2
          ∧ fsLookup fs2 input = some out
          ∧ fsExists fs2 (tempOutputPath cropCfg input) = false)
    ∧ (∀ (oracle : String → FfmpegResult) input fs out,
        oracle input = FfmpegResult.ok out →
        ∃ fs2, (re_encode_video oracle input true fs).1 = some fs2
          ∧ fsLookup fs2 input = some out
          ∧ fsExists fs2 (tempOutputPath transformCfg input) = false)
    ∧ (∀ (oracle : String → FfmpegResult) input fs rc err lo,
        oracle input = FfmpegResult.fail rc err lo →
        ∃ fs2, (crop_video_top_half oracle input true fs).1 = some fs2
          ∧ fsExists fs2 (tempOutputPath cropCfg input) = false)
    ∧ (∀ (oracle : String → FfmpegResult) input fs rc err lo,
        oracle input = FfmpegResult.fail rc err lo →
        ∃ fs2, (re_encode_video oracle input true fs).1 = some fs2
          ∧ fsExists fs2 (tempOutputPath transformCfg input) = false) := by
  refine ⟨?_, ?_, ?_, ?_, ?_⟩
  · intro p q hb
    constructor
    · intro h
      exact hb (tempOutputPath_inj
        (show cropCfg.tempPre.data = 't' :: "emp_crop_".data from rfl)
        (by decide) h)
    · intro h
      exact hb (tempOutputPath_inj
        (show transformCfg.tempPre.data = 't' :: "emp_".data from rfl)
        (by decide) h)
  · intro oracle input fs out h
    refine ⟨_, processVideo_ok_overwrite cropCfg oracle input fs out h, ?_, ?_⟩
    · exact fsMove_write_lookup_dst fs _ input out
    · have hs := fsMove_write_lookup_src fs (tempOutputPath cropCfg input) input out
        (tempOutputPath_crop_ne input)
      simp [fsExists, hs]
  · intro oracle input fs out h
    refine ⟨_, processVideo_ok_overwrite transformCfg oracle input fs out h, ?_, ?_⟩
    · exact fsMove_write_lookup_dst fs _ input out
    · have hs := fsMove_write_lookup_src fs (tempOutputPath transformCfg input) input out
        (tempOutputPath_transform_ne input)
      simp [fsExists, hs]
  · intro oracle input fs rc err lo h
    obtain ⟨fs2, h1, h2, h3, h4⟩ := processVideo_fail_overwrite cropCfg oracle
      input fs rc err lo h (tempOutputPath_crop_ne input)
    exact ⟨fs2, h1, h2⟩
  · intro oracle input fs rc err lo h
    obtain ⟨fs2, h1, h2, h3, h4⟩ := processVideo_fail_overwrite transformCfg oracle
      input fs rc err lo h (tempOutputPath_transform_ne input)
    exact ⟨fs2, h1, h2⟩

/-- Witness for C2 (amended) at concrete inputs. -/
theorem spec_C2_witness :
    tempOutputPath cropCfg "a/x.mp4" ≠ tempOutputPath cropCfg "a/y.mp4"
    ∧ (∃ fs2, (crop_video_top_half (fun _ => FfmpegResult.ok 7) "/r/v.mp4" true []).1
        = some fs2
      ∧ fsLookup fs2 "/r/v.mp4" = some 7
      ∧ fsExists fs2 (tempOutputPath cropCfg "/r/v.mp4") = false) := by
  constructor
  · exact (spec_C2.1 "a/x.mp4" "a/y.mp4" (by decide)).1
  · exact spec_C2.2.1 (fun _ => FfmpegResult.ok 7) "/r/v.mp4" [] 7 rfl

/-- C3: In OVERWRITE mode, on a non-zero exit of the external command the Job
leaves the destination (the source path) unchanged, removes the temporary
output file, and the captured stderr text is reported. -/
theorem spec_C3 :
    ∀ (oracle : String → FfmpegResult) input fs rc err lo,
      oracle input = FfmpegResult.fail rc err lo →
      (∃ fs2, (crop_video_top_half oracle input true fs).1 = some fs2
        ∧ fsLookup fs2 input = fsLookup fs input
        ∧ fsExists fs2 (tempOutputPath cropCfg input) = false
        ∧ ("  Stderr: " ++ err) ∈ (crop_video_top_half oracle input true fs).2)
      ∧ (∃ fs2, (re_encode_video oracle input true fs).1 = some fs2
        ∧ fsLookup fs2 input = fsLookup fs input
        ∧ fsExists fs2 (tempOutputPath transformCfg input) = false
        ∧ ("  Stderr: " ++ err) ∈ (re_encode_video oracle input true fs).2) := by
  intro oracle input fs rc err lo h
  constructor
  · obtain ⟨fs2, h1, h2, h3, h4⟩ := processVideo_fail_overwrite cropCfg oracle
      input fs rc err lo h (tempOutputPath_crop_ne input)
    exact ⟨fs2, h1, h3, h2, h4⟩
  · obtain ⟨fs2, h1, h2, h3, h4⟩ := processVideo_fail_overwrite transformCfg oracle
      input fs rc err lo h (tempOutputPath_transform_ne input)
    exact ⟨fs2, h1, h3, h2, h4⟩

/-- Witness for C3: a failing job on a one-file filesystem. -/
theorem spec_C3_witness :
    ∃ fs2, (crop_video_top_half (fun _ => FfmpegResult.fail 1 "boom" none)
        "/r/v.mp4" true [("/r/v.mp4", 5)]).1 = some fs2
      ∧ fsLookup fs2 "/r/v.mp4" = fsLookup [("/r/v.mp4", 5)] "/r/v.mp4"
      ∧ fsExists fs2 (tempOutputPath cropCfg "/r/v.mp4") = false
      ∧ ("  Stderr: " ++ "boom") ∈ (crop_video_top_half
          (fun _ => FfmpegResult.fail 1 "boom" none) "/r/v.mp4" true
          [("/r/v.mp4", 5)]).2 :=
  (spec_C3 (fun _ => FfmpegResult.fail 1 "boom" none) "/r/v.mp4"
    [("/r/v.mp4", 5)] 1 "boom" none rfl).1

/-- C4: As long as the external binary is found, a non-zero exit on some Jobs
does not prevent the others: every collected path is attempted, the run is not
aborted, and each failing Job's stderr is reported in the log. -/
theorem spec_C4 :
    ∀ (oracle : String → FfmpegResult) tree kw ow fs,
      (∀ p ∈ collectPaths (cropSelect kw ow) tree, oracle p ≠ FfmpegResult.notFound) →
      (find_and_crop_videos oracle true tree kw ow fs).attempted
          = collectPaths (cropSelect kw ow) tree
      ∧ (find_and_crop_videos oracle true tree kw ow fs).aborted = false
      ∧ (∀ p ∈ collectPaths (cropSelect kw ow) tree, ∀ rc err lo,
          oracle p = FfmpegResult.fail rc err lo →
          ("  Stderr: " ++ err) ∈ (find_and_crop_videos oracle true tree kw ow fs).log) := by
  intro oracle tree kw ow fs h
  rw [find_crop_true]
  cases hcol : collectPaths (cropSelect kw ow) tree with
  | nil => simp
  | cons q qs =>
    rw [hcol] at h
    have hne : (q :: qs).isEmpty = false := rfl
    rw [hne]
    simp only [Bool.false_eq_true, if_false]
    have H : ∀ p ∈ q :: qs, ∀ fsx,
        ((crop_video_top_half oracle p ow fsx).1).isSome = true :=
      fun p hp fsx => processVideo_isSome cropCfg oracle p ow fsx (h p hp)
    have hall := runJobs_all_attempted
      (fun p fsx => crop_video_top_half oracle p ow fsx) (q :: qs) fs H
    refine ⟨hall.1, hall.2, ?_⟩
    intro p hp rc err lo ho
    apply runJobs_log_mem _ _ (q :: qs) fs p hp H
    intro fsx
    show ("  Stderr: " ++ err) ∈ (processVideo cropCfg oracle p ow fsx).2
    unfold processVideo
    rw [ho]
    simp

/-- Witness for C4: a two-file batch in which the first job fails. -/
theorem spec_C4_witness :
    (find_and_crop_videos
        (fun p => if p = "r/a.mp4" then FfmpegResult.fail 1 "boom" none
          else FfmpegResult.ok 2)
        true [("r", "a.mp4"), ("r", "b.mp4")] "zzz" false []).attempted
      = collectPaths (cropSelect "zzz" false) [("r", "a.mp4"), ("r", "b.mp4")] :=
  (spec_C4 (fun p => if p = "r/a.mp4" then FfmpegResult.fail 1 "boom" none
      else FfmpegResult.ok 2)
    [("r", "a.mp4"), ("r", "b.mp4")] "zzz" false [] (by decide)).1

/-- C5: If the external binary is missing when some Job runs, the whole batch
aborts: exactly the earlier Jobs plus the failing one are attempted, and the
Jobs after it are never invoked. -/
theorem spec_C5 :
    (∀ (oracle : String → FfmpegResult) tree kw ow fs pre p post,
      collectPaths (cropSelect kw ow) tree = pre ++ p :: post →
      (∀ q ∈ pre, oracle q ≠ FfmpegResult.notFound) →
      oracle p = FfmpegResult.notFound →
      (find_and_crop_videos oracle true tree kw ow fs).attempted = pre ++ [p]
        ∧ (find_and_crop_videos oracle true tree kw ow fs).aborted = true)
    ∧ (∀ (oracle : String → FfmpegResult) tree kw ow fs pre p post,
      collectPaths (transformSelect kw ow) tree = pre ++ p :: post →
      (∀ q ∈ pre, oracle q ≠ FfmpegResult.notFound) →
      oracle p = FfmpegResult.notFound →
      (find_and_process_videos oracle true tree kw ow fs).attempted = pre ++ [p]
        ∧ (find_and_process_videos oracle true tree kw ow fs).aborted = true) := by
  constructor
  · intro oracle tree kw ow fs pre p post hcol hpre hp
    rw [find_crop_true, hcol]
    have hne : (pre ++ p :: post).isEmpty = false := by cases pre <;> rfl
    rw [hne]
    simp only [Bool.false_eq_true, if_false]
    exact runJobs_abort (fun q fsx => crop_video_top_half oracle q ow fsx) pre p post fs
      (fun q hq fsx => processVideo_isSome cropCfg oracle q ow fsx (hpre q hq))
      (fun fsx => (processVideo_none_iff cropCfg oracle p ow fsx).mpr hp)
  · intro oracle tree kw ow fs pre p post hcol hpre hp
    rw [find_transform_true, hcol]
    have hne : (pre ++ p :: post).isEmpty = false := by cases pre <;> rfl
    rw [hne]
    simp only [Bool.false_eq_true, if_false]
    exact runJobs_abort (fun q fsx => re_encode_video oracle q ow fsx) pre p post fs
      (fun q hq fsx => processVideo_isSome transformCfg oracle q ow fsx (hpre q hq))
      (fun fsx => (processVideo_none_iff transformCfg oracle p ow fsx).mpr hp)

/-- Witness for C5: a one-file batch whose only job hits a missing binary. -/
theorem spec_C5_witness :
    (find_and_crop_videos (fun _ => FfmpegResult.notFound) true
        [("r", "a.mp4")] "motion" false []).attempted = [] ++ ["r/a.mp4"]
    ∧ (find_and_crop_videos (fun _ => FfmpegResult.notFound) true
        [("r", "a.mp4")] "motion" false []).aborted = true :=
  spec_C5.1 (fun _ => FfmpegResult.notFound) [("r", "a.mp4")] "motion" false []
    [] "r/a.mp4" [] (by decide) (by decide) rfl

/-- C6: The destination-path computation is a pure function of source path
and mode: OVERWRITE returns the source path itself; COPY returns the
extension-free stem with the pipeline's fixed suffix (`_cropped` / `_new`)
appended before the same extension, in the same directory, and never equal to
the source path. -/
theorem spec_C6 : ∀ input : String,
    destPath cropCfg input true = input
    ∧ destPath transformCfg input true = input
    ∧ destPath cropCfg input false
        = (pySplitext input).1 ++ "_cropped" ++ (pySplitext input).2
    ∧ destPath transformCfg input false
        = (pySplitext input).1 ++ "_new" ++ (pySplitext input).2
    ∧ (pySplitext input).1 ++ (pySplitext input).2 = input
    ∧ destPath cropCfg input false ≠ input
    ∧ destPath transformCfg input false ≠ input
    ∧ (pySplitext (destPath cropCfg input false)).2 = (pySplitext input).2
    ∧ (pySplitext (destPath transformCfg input false)).2 = (pySplitext input).2
    ∧ pyDirname (destPath cropCfg input false) = pyDirname input
    ∧ pyDirname (destPath transformCfg input false) = pyDirname input := by
  intro input
  refine ⟨rfl, rfl, rfl, rfl, pySplitext_concat input,
    copyDest_ne cropCfg input (by decide),
    copyDest_ne transformCfg input (by decide), ?_, ?_,
    pyDirname_copyDest cropCfg input (by decide),
    pyDirname_copyDest transformCfg input (by decide)⟩
  · have h := pySplitext_sfx "_cropped" input (by decide) (by decide) (by decide)
    rw [show destPath cropCfg input false
        = (pySplitext input).1 ++ "_cropped" ++ (pySplitext input).2 from rfl, h]
  · have h := pySplitext_sfx "_new" input (by decide) (by decide) (by decide)
    rw [show destPath transformCfg input false
        = (pySplitext input).1 ++ "_new" ++ (pySplitext input).2 from rfl, h]

/-- C7: The COPY-mode scanner never selects a file produced by a COPY-mode
run: adding the run's own outputs (same directory, `base + suffix + ext`
filename) to the tree leaves the collected set unchanged, every such output
filename is rejected by the selection predicate, and — under walk sanity — the
output path written for a selected entry `(d, f)` is exactly the join of `d`
with the suffixed filename, so no `_cropped_cropped` / `_new_new` chains can
arise on a second run. -/
theorem spec_C7 : ∀ (tree : List (String × String)) (kw : String),
    collectPaths (cropSelect kw false)
        (tree ++ (tree.filter (fun e => cropSelect kw false e.2)).map
          (fun e => (e.1, destFilename cropCfg e.2)))
      = collectPaths (cropSelect kw false) tree
    ∧ collectPaths (transformSelect kw false)
        (tree ++ (tree.filter (fun e => transformSelect kw false e.2)).map
          (fun e => (e.1, destFilename transformCfg e.2)))
      = collectPaths (transformSelect kw false) tree
    ∧ (∀ f : String, cropSelect kw false (destFilename cropCfg f) = false)
    ∧ (∀ f : String, transformSelect kw false (destFilename transformCfg f) = false)
    ∧ ((∀ e ∈ tree, GoodEntry e) → ∀ d f, (d, f) ∈ tree →
        copyDest cropCfg (pyJoin d f) = pyJoin d (destFilename cropCfg f)
          ∧ copyDest transformCfg (pyJoin d f) = pyJoin d (destFilename transformCfg f)) := by
  intro tree kw
  refine ⟨?_, ?_, fun f => cropSelect_dest_false kw f,
    fun f => transformSelect_dest_false kw f, ?_⟩
  · apply collect_append_unselected
    intro e he
    obtain ⟨e2, he2, rfl⟩ := List.mem_map.mp he
    exact cropSelect_dest_false kw e2.2
  · apply collect_append_unselected
    intro e he
    obtain ⟨e2, he2, rfl⟩ := List.mem_map.mp he
    exact transformSelect_dest_false kw e2.2
  · intro hg d f hm
    obtain ⟨hf, hfne, hd2, hd1⟩ := hg (d, f) hm
    exact ⟨copyDest_join cropCfg hd1 hd2 hf hfne (by decide),
      copyDest_join transformCfg hd1 hd2 hf hfne (by decide)⟩

/-- Witness for C7: a COPY-mode output path of a selected concrete entry. -/
theorem spec_C7_witness :
    copyDest cropCfg (pyJoin "root" "a.mp4")
      = pyJoin "root" (destFilename cropCfg "a.mp4") :=
  ((spec_C7 [("root", "a.mp4")] "motion").2.2.2.2 (by decide)
    "root" "a.mp4" (by decide)).1

/-- C8: When the root is not an existing directory, both pipelines report the
error and return immediately: the filesystem is untouched, no Job is
attempted, and the process is not aborted. -/
theorem spec_C8 : ∀ (oracle : String → FfmpegResult) tree kw ow fs,
    (find_and_crop_videos oracle false tree kw ow fs).fs = fs
    ∧ (find_and_crop_videos oracle false tree kw ow fs).attempted = []
    ∧ (find_and_crop_videos oracle false tree kw ow fs).aborted = false
    ∧ (find_and_crop_videos oracle false tree kw ow fs).log
        = ["Error: directory not found."]
    ∧ (find_and_process_videos oracle false tree kw ow fs).fs = fs
    ∧ (find_and_process_videos oracle false tree kw ow fs).attempted = []
    ∧ (find_and_process_videos oracle false tree kw ow fs).aborted = false
    ∧ (find_and_process_videos oracle false tree kw ow fs).log
        = ["Error: directory not found."] := by
  intro oracle tree kw ow fs
  exact ⟨rfl, rfl, rfl, rfl, rfl, rfl, rfl, rfl⟩

/-- C9: The candidate list is computed from the initial tree before any
transcode runs: when the tool is available, the attempted Jobs are exactly the
paths collected from the initial tree (for either pipeline and any
filesystem), and in COPY mode the output path written for a selected entry is
never itself in the candidate list. -/
theorem spec_C9 : ∀ (oracle : String → FfmpegResult)
    (tree : List (String × String)) (kw : String) (fs : FS),
    (∀ p, oracle p ≠ FfmpegResult.notFound) →
    (∀ e ∈ tree, GoodEntry e) →
    (find_and_crop_videos oracle true tree kw false fs).attempted
        = collectPaths (cropSelect kw false) tree
    ∧ (find_and_process_videos oracle true tree kw false fs).attempted
        = collectPaths (transformSelect kw false) tree
    ∧ (∀ d f, (d, f) ∈ tree → cropSelect kw false f = true →
        copyDest cropCfg (pyJoin d f) ∉ collectPaths (cropSelect kw false) tree)
    ∧ (∀ d f, (d, f) ∈ tree → transformSelect kw false f = true →
        copyDest transformCfg (pyJoin d f)
          ∉ collectPaths (transformSelect kw false) tree) := by
  intro oracle tree kw fs hor hg
  refine ⟨?_, ?_, ?_, ?_⟩
  · rw [find_crop_true]
    cases hcol : collectPaths (cropSelect kw false) tree with
    | nil => rfl
    | cons q qs =>
      have hne : (q :: qs).isEmpty = false := rfl
      rw [hne]
      simp only [Bool.false_eq_true, if_false]
      exact (runJobs_all_attempted _ (q :: qs) fs
        (fun p hp fsx => processVideo_isSome cropCfg oracle p false fsx (hor p))).1
  · rw [find_transform_true]
    cases hcol : collectPaths (transformSelect kw false) tree with
    | nil => rfl
    | cons q qs =>
      have hne : (q :: qs).isEmpty = false := rfl
      rw [hne]
      simp only [Bool.false_eq_true, if_false]
      exact (runJobs_all_attempted _ (q :: qs) fs
        (fun p hp fsx => processVideo_isSome transformCfg oracle p false fsx (hor p))).1
  · intro d f hm hsel hmem
    obtain ⟨hf, hfne, hd2, hd1⟩ := hg (d, f) hm
    rw [copyDest_join cropCfg hd1 hd2 hf hfne (by decide)] at hmem
    obtain ⟨d2, f2, hm2, hsel2, heq⟩ := (mem_collectPaths _ tree _).mp hmem
    obtain ⟨hf2, hfne2, he2, hde2⟩ := hg (d2, f2) hm2
    obtain ⟨hdd, hff⟩ := pyJoin_inj hd1 hd2
      (destFilename_noslash cropCfg f hf (by decide))
      (destFilename_ne_empty cropCfg f hfne)
      hde2 he2 hf2 hfne2 heq
    have hff2 : destFilename cropCfg f = f2 := hff
    rw [← hff2] at hsel2
    rw [cropSelect_dest_false kw f] at hsel2
    exact Bool.noConfusion hsel2
  · intro d f hm hsel hmem
    obtain ⟨hf, hfne, hd2, hd1⟩ := hg (d, f) hm
    rw [copyDest_join transformCfg hd1 hd2 hf hfne (by decide)] at hmem
    obtain ⟨d2, f2, hm2, hsel2, heq⟩ := (mem_collectPaths _ tree _).mp hmem
    obtain ⟨hf2, hfne2, he2, hde2⟩ := hg (d2, f2) hm2
    obtain ⟨hdd, hff⟩ := pyJoin_inj hd1 hd2
      (destFilename_noslash transformCfg f hf (by decide))
      (destFilename_ne_empty transformCfg f hfne)
      hde2 he2 hf2 hfne2 heq
    have hff2 : destFilename transformCfg f = f2 := hff
    rw [← hff2] at hsel2
    rw [transformSelect_dest_false kw f] at hsel2
    exact Bool.noConfusion hsel2

/-- Witness for C9: the one-file batch processes exactly the initially
collected path. -/
theorem spec_C9_witness :
    (find_and_crop_videos (fun _ => FfmpegResult.ok 0) true
        [("root", "a.mp4")] "motion" false []).attempted
      = collectPaths (cropSelect "motion" false) [("root", "a.mp4")] :=
  (spec_C9 (fun _ => FfmpegResult.ok 0) [("root", "a.mp4")] "motion" []
    (fun p h => FfmpegResult.noConfusion h) (by decide)).1

/-- C10: With an empty keyword the substring test accepts every filename, so
the crop pipeline selects nothing in any tree and any mode, while the
transform pipeline in COPY mode selects exactly the `.mp4` files that do not
carry its `_new.mp4` output suffix; the empty keyword is accepted by the
(total) selection functions without error. -/
theorem spec_C10 : ∀ (tree : List (String × String)) (ow : Bool),
    collectPaths (cropSelect "" ow) tree = []
    ∧ collectPaths (transformSelect "" false) tree
        = collectPaths (fun f => strEndsWith (strLower f) ".mp4"
            && !(strEndsWith (strLower f) "_new.mp4")) tree
    ∧ (∀ f, strContains f "" = true) := by
  intro tree ow
  exact ⟨collectPaths_nil_of_false (cropSelect_empty_kw ow) tree,
    collectPaths_congr transformSelect_empty_kw tree,
    fun f => strContains_empty f⟩

end EchoMotion
